import Mathlib

/-!
Verification development for the circuit-construction-kit-common network solver.

Shallow embedding of:
* `ModifiedNodalAnalysisCircuit` (static MNA solver): elements, node set,
  unknowns, equation building, reference-node selection via graph search,
  and the solve routine with its singular-matrix fallback.
* `TimestepSubdivisions` (adaptive integrator): `search` and
  `stepInTimeWithHistory`.
* `LTAStateSet.getTimeAverageCurrent` (result aggregation).
* `ModifiedNodalAnalysisAdapter.solveModifiedNodalAnalysis` (one-shot
  corrective re-solve policy).

JavaScript numbers are embedded as exact rationals `ℚ`; node identifiers are
`ℕ`.  JavaScript object identity of circuit elements is embedded as an
explicit `elementId : ℕ` field (two distinct objects carry distinct ids);
`UnknownCurrent.equals` compares object identity, hence unknown-current
variables are keyed by `elementId`.  The external QR decomposition from the
dot library is abstracted as a parameter `lin` returning `none` exactly when
the decomposition throws (the `try`/`catch` in `solve`).
-/

/-- A solver-view circuit element (`ModifiedNodalAnalysisCircuitElement`):
terminal node ids `nodeId0`, `nodeId1`, a numeric `value` (resistance,
voltage, or current depending on the collection it sits in), and the
`currentSolution` field that `solve` writes the solved current into
(`null`, i.e. `none`, until assigned). -/
structure MNAElement where
  elementId : ℕ
  nodeId0 : ℕ
  nodeId1 : ℕ
  value : ℚ
  currentSolution : Option ℚ := none
deriving DecidableEq, Repr

/-- The two sides of an element, mirroring the string literals
`'nodeId0'` and `'nodeId1'` used by `getCurrentTerms`. -/
inductive NodeSide where
  | side0
  | side1
deriving DecidableEq, Repr

/-- Field access `element[ side ]`. -/
def MNAElement.onSide (e : MNAElement) : NodeSide → ℕ
  | NodeSide.side0 => e.nodeId0
  | NodeSide.side1 => e.nodeId1

/-- A variable of the linear system: `UnknownCurrent` (keyed by the identity
of its element, per `UnknownCurrent.equals`) or `UnknownVoltage` (keyed by
its node, per `UnknownVoltage.equals`). -/
inductive Unknown where
  | current (elementId : ℕ)
  | voltage (node : ℕ)
deriving DecidableEq, Repr

/-- A `Term`: a coefficient times a variable. -/
structure Term where
  coefficient : ℚ
  variable' : Unknown
deriving DecidableEq, Repr

/-- An `Equation`: a sum of terms equal to a numeric value. -/
structure Equation where
  value : ℚ
  terms : List Term
deriving DecidableEq, Repr

/-- `ModifiedNodalAnalysisCircuit`: the three element collections given to
the constructor. -/
structure MNACircuit where
  batteries : List MNAElement
  resistors : List MNAElement
  currentSources : List MNAElement
deriving DecidableEq, Repr

namespace MNACircuit

/-- `this.elements`: all elements, batteries then resistors then current
sources. -/
def elements (c : MNACircuit) : List MNAElement :=
  c.batteries ++ c.resistors ++ c.currentSources

/-- The node-id occurrences inserted into `this.nodeSet` (both terminals of
every element, in element order). -/
def mentionedNodes (c : MNACircuit) : List ℕ :=
  c.elements.flatMap (fun e => [e.nodeId0, e.nodeId1])

/-- `this.nodes`: the distinct node ids of the circuit (the values of the
key set `this.nodeSet`). -/
def nodes (c : MNACircuit) : List ℕ :=
  (mentionedNodes c).dedup

/-- `this.nodeCount`. -/
def nodeCount (c : MNACircuit) : ℕ := (nodes c).length

/-- `getCurrentCount`: one unknown current per battery plus one per
resistor whose resistance is exactly `0`. -/
def getCurrentCount (c : MNACircuit) : ℕ :=
  c.batteries.length + (c.resistors.filter (fun r => r.value = 0)).length

/-- `getNumVars`: one variable per node voltage plus one per unknown
current. -/
def getNumVars (c : MNACircuit) : ℕ :=
  c.nodeCount + c.getCurrentCount

/-- `getCurrentSourceTotal`: signed sum of source currents at a node
(incoming negative, outgoing positive). -/
def getCurrentSourceTotal (c : MNACircuit) (nodeIndex : ℕ) : ℚ :=
  c.currentSources.foldl
    (fun total cs =>
      let total := if cs.nodeId1 = nodeIndex then total - cs.value else total
      if cs.nodeId0 = nodeIndex then total + cs.value else total)
    0

/-- The terms pushed for one battery inside `getCurrentTerms`: an unknown
current through the battery when it touches the node on the given side. -/
def batteryContribution (b : MNAElement) (node : ℕ) (side : NodeSide)
    (sign : ℚ) : List Term :=
  if b.onSide side = node then [⟨sign, Unknown.current b.elementId⟩] else []

/-- The terms pushed for one resistor inside `getCurrentTerms`: an unknown
current when the resistance is exactly `0`, otherwise the two Ohm's-law
conductance terms `∓ sign / R` on the terminal voltages. -/
def resistorContribution (r : MNAElement) (node : ℕ) (side : NodeSide)
    (sign : ℚ) : List Term :=
  if r.onSide side = node then
    if r.value = 0 then [⟨sign, Unknown.current r.elementId⟩]
    else [⟨-sign / r.value, Unknown.voltage r.nodeId1⟩,
          ⟨sign / r.value, Unknown.voltage r.nodeId0⟩]
  else []

/-- `getCurrentTerms`: appends to the accumulator `nodeTerms` the battery
terms then the resistor terms for the given node and side. -/
def getCurrentTerms (c : MNACircuit) (node : ℕ) (side : NodeSide) (sign : ℚ)
    (nodeTerms : List Term) : List Term :=
  let t1 := c.batteries.foldl
    (fun acc b => acc ++ batteryContribution b node side sign) nodeTerms
  c.resistors.foldl
    (fun acc r => acc ++ resistorContribution r node side sign) t1

/-- The full current-conservation term list of one node's KCL equation:
incoming (`'nodeId1'`, sign `-1`) then outgoing (`'nodeId0'`, sign `+1`),
accumulated in one list as in `getEquations`. -/
def kclTerms (c : MNACircuit) (node : ℕ) : List Term :=
  c.getCurrentTerms node NodeSide.side0 1
    (c.getCurrentTerms node NodeSide.side1 (-1) [])

/-- Adjacency of two nodes: some element has them as its two terminals
(`element.containsNodeId` / `element.getOppositeNode` in the breadth-first
search). -/
def Adjb (c : MNACircuit) (a b : ℕ) : Bool :=
  c.elements.any (fun e =>
    (e.nodeId0 = a ∧ e.nodeId1 = b) ∨ (e.nodeId0 = b ∧ e.nodeId1 = a))

/-- Adjacency as a proposition. -/
def Adj (c : MNACircuit) (a b : ℕ) : Prop := Adjb c a b = true

/-- Connectivity: reachability by any path of elements.  This is the
specification relation against which the breadth-first search
`getConnectedNodeIds` is proved correct. -/
def Connected (c : MNACircuit) (a b : ℕ) : Prop :=
  Relation.ReflTransGen (Adj c) a b

/-- One round of the breadth-first search of `getConnectedNodeIds`: add
every mentioned node adjacent to an already-visited node. -/
def expandOnce (c : MNACircuit) (s : List ℕ) : List ℕ :=
  (s ++ (mentionedNodes c).filter (fun m => s.any (fun v => Adjb c v m))).dedup

/-- `getConnectedNodeIds`: all nodes connected (by any path) to the given
node.  The breadth-first search is embedded as saturation of the one-round
expansion, iterated enough times to reach its fixed point. -/
def getConnectedNodeIds (c : MNACircuit) (node : ℕ) : List ℕ :=
  (expandOnce c)^[(mentionedNodes c).length] [node]

/-- The loop of `getReferenceNodeIds`: take the first unvisited node as a
reference, drop every node connected to it (`arrayRemove` over
`getConnectedNodeIds`), repeat.  The loop removes at least its head on
every round, so running it with fuel equal to the length of the remaining
list is exact; the fuel-0 branch is unreachable for nonempty input. -/
def refSelect (c : MNACircuit) : ℕ → List ℕ → List ℕ
  | _, [] => []
  | 0, _ :: _ => []
  | fuel + 1, n :: rest =>
    n :: refSelect c fuel
      (rest.filter (fun m => ¬ m ∈ c.getConnectedNodeIds n))

/-- `getReferenceNodeIds`: one node per connected component, chosen to have
the reference voltage of 0 volts. -/
def getReferenceNodeIds (c : MNACircuit) : List ℕ :=
  refSelect c (nodes c).length (nodes c)

/-- The reference equations of `getEquations`: `V = 0` at each reference
node. -/
def referenceEquations (c : MNACircuit) : List Equation :=
  (getReferenceNodeIds c).map
    (fun r => ⟨0, [⟨1, Unknown.voltage r⟩]⟩)

/-- The charge-conservation equations of `getEquations`, one per node. -/
def kclEquations (c : MNACircuit) : List Equation :=
  (nodes c).map (fun node => ⟨c.getCurrentSourceTotal node, kclTerms c node⟩)

/-- The battery equations of `getEquations`:
`V(nodeId1) − V(nodeId0) = voltage`. -/
def batteryEquations (c : MNACircuit) : List Equation :=
  c.batteries.map (fun b =>
    ⟨b.value, [⟨-1, Unknown.voltage b.nodeId0⟩, ⟨1, Unknown.voltage b.nodeId1⟩]⟩)

/-- The zero-resistance equations of `getEquations`:
`V(nodeId0) − V(nodeId1) = 0` for each resistor with no resistance. -/
def zeroResistorEquations (c : MNACircuit) : List Equation :=
  (c.resistors.filter (fun r => r.value = 0)).map (fun r =>
    ⟨0, [⟨1, Unknown.voltage r.nodeId0⟩, ⟨-1, Unknown.voltage r.nodeId1⟩]⟩)

/-- `getEquations`: reference equations, then one KCL equation per node,
then one equation per battery, then one per zero-resistance resistor. -/
def getEquations (c : MNACircuit) : List Equation :=
  referenceEquations c ++ kclEquations c ++ batteryEquations c ++
    zeroResistorEquations c

/-- `getUnknownCurrents`: an unknown current per battery, then one per
zero-resistance resistor. -/
def getUnknownCurrents (c : MNACircuit) : List Unknown :=
  c.batteries.map (fun b => Unknown.current b.elementId) ++
    (c.resistors.filter (fun r => r.value = 0)).map
      (fun r => Unknown.current r.elementId)

/-- The ordered unknown list of `solve`: unknown currents, then one unknown
voltage per node. -/
def unknownsList (c : MNACircuit) : List Unknown :=
  getUnknownCurrents c ++ (nodes c).map Unknown.voltage

end MNACircuit

/-- Value of a term list under an assignment of the unknowns (the left-hand
side of an `Equation`, as stamped into the matrix row). -/
def evalTerms (f : Unknown → ℚ) (ts : List Term) : ℚ :=
  (ts.map (fun t => t.coefficient * f t.variable')).sum

/-- An assignment satisfies an equation system when every equation's terms
sum to its value. -/
def satisfiesAll (eqs : List Equation) (f : Unknown → ℚ) : Prop :=
  ∀ eq ∈ eqs, evalTerms f eq.terms = eq.value

instance (eqs : List Equation) (f : Unknown → ℚ) :
    Decidable (satisfiesAll eqs f) := by
  unfold satisfiesAll; infer_instance

/-- The assignment read off a solution vector `x` through the ordered
unknown list (`getIndexByEquals` followed by `x.get`). -/
def assignOf (unknowns : List Unknown) (x : List ℚ) : Unknown → ℚ :=
  fun u => x.getD (unknowns.indexOf u) 0

/-- The `ModifiedNodalAnalysisSolution` data: the voltage map populated from
the solved unknown voltages and the elements whose `currentSolution` was
populated. -/
structure MNASolution where
  voltageMap : List (ℕ × ℚ)
  elements : List MNAElement
deriving DecidableEq, Repr

namespace MNACircuit

/-- `solve`, with the external QR decomposition of the dot library
abstracted as `lin` (it receives the equations and the ordered unknown list
that determine the stamped matrices `A`, `z`, and returns `none` exactly when
the decomposition throws).  On `none` the catch block substitutes the
all-zero vector of dimension `A.n = getNumVars`.  The returned circuit
carries the inputs after the call, reflecting the assignment
`unknownCurrent.element.currentSolution = x.get( ... )` performed on the
battery and zero-resistance-resistor objects. -/
def solveWith (c : MNACircuit)
    (lin : List Equation → List Unknown → Option (List ℚ)) :
    MNASolution × MNACircuit :=
  let equations := getEquations c
  let unknowns := unknownsList c
  let x : List ℚ := (lin equations unknowns).getD
    (List.replicate c.getNumVars 0)
  let xAt : Unknown → ℚ := assignOf unknowns x
  let voltageMap := (nodes c).map (fun n => (n, xAt (Unknown.voltage n)))
  let updateElement : MNAElement → MNAElement := fun e =>
    if Unknown.current e.elementId ∈ getUnknownCurrents c then
      { e with currentSolution := some (xAt (Unknown.current e.elementId)) }
    else e
  let solutionElements :=
    (c.batteries ++ c.resistors.filter (fun r => r.value = 0)).map
      updateElement
  (⟨voltageMap, solutionElements⟩,
    ⟨c.batteries.map updateElement, c.resistors.map updateElement,
      c.currentSources⟩)

end MNACircuit

/-- Modelled from the spec: `ModifiedNodalAnalysisSolution`'s resistor
current (the class itself is not under `src/`): the current through a
nonzero resistor is populated via Ohm's law from the solved voltages,
`(V(nodeId0) − V(nodeId1)) / R`, matching the sign convention of the tests
("current should be 1 amp through the resistor" for a battery `0→1` of 4 V
and a resistor `1→0` of 4 Ω). -/
def ohmCurrent (f : Unknown → ℚ) (r : MNAElement) : ℚ :=
  (f (Unknown.voltage r.nodeId0) - f (Unknown.voltage r.nodeId1)) / r.value

/-- Negating the voltage of every battery of the circuit (for the
sign-reversal property the batteries list is a singleton, so this negates
exactly the one battery, leaving all other inputs unchanged). -/
def negateBatteries (c : MNACircuit) : MNACircuit :=
  { c with batteries := c.batteries.map (fun b => { b with value := -b.value }) }

/-- The element identities of a circuit are pairwise distinct (JavaScript
object identity: distinct list entries are distinct objects). -/
def idsNodup (c : MNACircuit) : Prop :=
  ((c.elements).map MNAElement.elementId).Nodup

instance (c : MNACircuit) : Decidable (idsNodup c) := by
  unfold idsNodup; infer_instance

/-! ## TimestepSubdivisions (src/js/model/TimestepSubdivisions.ts)

`MIN_DT` is the query-parameter configuration `CCKCQueryParameters.minDT`;
it is kept as an explicit parameter `minDT`.  The recursions of `search`
(halving `dt`) and of the `while` loop of `stepInTimeWithHistory` are
embedded with an explicit fuel counter; the termination theorems exhibit
concrete sufficient fuel, so fuel exhaustion (`none`) never occurs on the
stated inputs. -/

/-- `ERROR_THRESHOLD = 1E-5`. -/
def errorThreshold : ℚ := 1 / 100000

/-- A `Steppable`: immutable `update` by a time `dt` and a `distance`
between two states. -/
structure Steppable (T : Type) where
  update : T → ℚ → T
  distance : T → T → ℚ

/-- `TimestepSubdivisions.search`: if `dt ≤ MIN_DT` accept `MIN_DT`
unconditionally; otherwise compare one full step `a` with two half steps
`b2` (reusing `halfStepState` for the first half step when provided by the
parent call) and either accept `(dt, b2)` or recurse on `dt / 2` passing
the computed half-step state. -/
def search {T : Type} (s : Steppable T) (minDT : ℚ) :
    ℕ → T → ℚ → Option T → Option (ℚ × T)
  | fuel, state, dt, halfStepState =>
    if dt ≤ minDT then some (minDT, s.update state minDT)
    else
      let a := s.update state dt
      let b1 := halfStepState.getD (s.update state (dt / 2))
      let b2 := s.update b1 (dt / 2)
      if s.distance a b2 < errorThreshold then some (dt, b2)
      else
        match fuel with
        | 0 => none
        | fuel + 1 => search s minDT fuel state (dt / 2) (some b1)

/-- The `while ( elapsedTime < totalTime )` loop of
`stepInTimeWithHistory`: run `search` on the attempted `dt`, record the
accepted sub-step, advance the elapsed time, and propose double the
accepted `dt` clamped to the remaining time. -/
def stepLoop {T : Type} (s : Steppable T) (minDT totalTime : ℚ)
    (searchFuel : ℕ) :
    ℕ → T → ℚ → ℚ → List (ℚ × T) → Option (List (ℚ × T))
  | fuel, state, elapsedTime, attemptedDT, states =>
    if elapsedTime < totalTime then
      match fuel with
      | 0 => none
      | fuel + 1 =>
        match search s minDT searchFuel state attemptedDT none with
        | none => none
        | some (dt, newState) =>
          let elapsedTime' := elapsedTime + dt
          let attemptedDT' :=
            if dt * 2 > totalTime - elapsedTime' then totalTime - elapsedTime'
            else dt * 2
          stepLoop s minDT totalTime searchFuel fuel newState elapsedTime'
            attemptedDT' (states ++ [(dt, newState)])
    else some states

/-- `TimestepSubdivisions.stepInTimeWithHistory`: start with elapsed time
`0`, attempted `dt = totalTime`, and an empty history. -/
def stepInTimeWithHistory {T : Type} (s : Steppable T) (minDT : ℚ)
    (searchFuel outerFuel : ℕ) (originalState : T) (totalTime : ℚ) :
    Option (List (ℚ × T)) :=
  stepLoop s minDT totalTime searchFuel outerFuel originalState 0 totalTime []

/-- Sum of the recorded sub-step durations of a result set. -/
def sumDts {T : Type} (states : List (ℚ × T)) : ℚ :=
  (states.map Prod.fst).sum

/-! ## LTAStateSet (src/js/model/analysis/LTAStateSet.ts)

A recorded sub-step is a pair of its duration `dt` and its state; the
state's `ltaSolution.getCurrent` lookup is embedded as the function
`α → ℚ` carried by the state, where `α` is the element type. -/

/-- `LTAStateSet.getTimeAverageCurrent`: the `forEach` accumulation
`weightedSum += current * dt; totalTime += dt` followed by the division
`weightedSum / totalTime`. -/
def getTimeAverageCurrent {α : Type} (resultSet : List (ℚ × (α → ℚ)))
    (element : α) : ℚ :=
  (resultSet.foldl (fun weightedSum st => weightedSum + st.2 element * st.1) 0)
    / (resultSet.foldl (fun totalTime st => totalTime + st.1) 0)

/-! ## ModifiedNodalAnalysisAdapter (src/js/model/ModifiedNodalAnalysisAdapter.js)

Only the solve-count / corrective re-solve policy is embedded.  The classes
`DynamicCircuit`, `CircuitResult` and `DynamicCircuit.ResistiveBattery` are
code of this repository that is not under `src/`; they are abstracted as the
environment `AdapterEnv` (an opaque result type `R`, the solver
`solveWithSubdivisions`, the readouts used by the policy, and the
configured `CCKCQueryParameters.batteryCurrentThreshold`). -/

/-- A `ResistiveBatteryAdapter`'s mutable solver view: its true internal
resistance and its current effective series resistance. -/
structure ResistiveBatteryAdapter where
  internalResistance : ℚ
  resistance : ℚ
deriving DecidableEq, Repr

/-- Modelled from the spec: the `DynamicCircuit.ResistiveBattery`
constructor (not under `src/`) gives a voltage source a near-zero default
effective series resistance, later raised to its true internal value if its
drawn current exceeds the configured threshold. -/
def mkResistiveBatteryAdapter (nearZeroDefault internalResistance : ℚ) :
    ResistiveBatteryAdapter :=
  ⟨internalResistance, nearZeroDefault⟩

/-- A `ResistorAdapter` as seen by the corrective policy: whether it wraps
a real light bulb, and its effective resistance. -/
structure ResistorAdapterView where
  isRealBulb : Bool
  resistance : ℚ
deriving DecidableEq, Repr

/-- The external collaborators of `solveModifiedNodalAnalysis`
(`DynamicCircuit.solveWithSubdivisions`, `CircuitResult` readouts, and the
query-parameter threshold), abstracted over the result type `R`. -/
structure AdapterEnv (R : Type) where
  solveWithSubdivisions :
    List ResistiveBatteryAdapter → List ResistorAdapterView → R
  getTimeAverageCurrent : R → ℕ → ℚ
  bulbResistanceFromSolution : R → ℕ → ℚ
  batteryCurrentThreshold : ℚ

/-- The battery pass of the corrective policy (`forEach` with its index):
a battery whose time-averaged current magnitude exceeds the threshold has
its effective resistance raised to its internal resistance. -/
def adjustBatteries (avg : ℕ → ℚ) (threshold : ℚ) :
    ℕ → List ResistiveBatteryAdapter → List ResistiveBatteryAdapter
  | _, [] => []
  | i, b :: rest =>
    (if |avg i| > threshold then { b with resistance := b.internalResistance }
     else b) :: adjustBatteries avg threshold (i + 1) rest

/-- Whether the battery pass sets `needsHelp`. -/
def anyBatteryExceeds (avg : ℕ → ℚ) (threshold : ℚ) :
    ℕ → List ResistiveBatteryAdapter → Bool
  | _, [] => false
  | i, _ :: rest => (|avg i| > threshold : Bool) ||
      anyBatteryExceeds avg threshold (i + 1) rest

/-- The real-light-bulb passes: the first pass sets the resistance to `1.0`
and `needsHelp`; the second recomputes the resistance from the first
solution's voltage drop (the logarithmic formula uses the external
`Math.log` and is abstracted as `bulbResistanceFromSolution`). -/
def adjustBulbs (newResistance : ℕ → ℚ) :
    ℕ → List ResistorAdapterView → List ResistorAdapterView
  | _, [] => []
  | i, b :: rest =>
    (if b.isRealBulb then { b with resistance := newResistance i } else b) ::
      adjustBulbs newResistance (i + 1) rest

/-- The outcome of `solveModifiedNodalAnalysis`: which circuit result was
applied, how many full solves ran, and the final adapter states. -/
structure AdapterOutcome (R : Type) where
  result : R
  solveCount : ℕ
  finalBatteries : List ResistiveBatteryAdapter
  finalBulbs : List ResistorAdapterView

/-- `ModifiedNodalAnalysisAdapter.solveModifiedNodalAnalysis`, lines
210–258: one full solve; then the single `needsHelp` pass (real bulbs and
over-threshold batteries); then at most one re-solve — never iterated. -/
def solveModifiedNodalAnalysis {R : Type} (env : AdapterEnv R)
    (batteries : List ResistiveBatteryAdapter)
    (bulbs : List ResistorAdapterView) : AdapterOutcome R :=
  let circuitResult := env.solveWithSubdivisions batteries bulbs
  let needsHelp := bulbs.any (fun b => b.isRealBulb) ||
    anyBatteryExceeds (env.getTimeAverageCurrent circuitResult)
      env.batteryCurrentThreshold 0 batteries
  let batteries1 := adjustBatteries (env.getTimeAverageCurrent circuitResult)
    env.batteryCurrentThreshold 0 batteries
  let bulbs1 := adjustBulbs
    (env.bulbResistanceFromSolution circuitResult) 0 bulbs
  if needsHelp then
    ⟨env.solveWithSubdivisions batteries1 bulbs1, 2, batteries1, bulbs1⟩
  else
    ⟨circuitResult, 1, batteries1, bulbs1⟩

/-! ## Generic accumulation lemmas -/

/-- A `push`-style `foldl` appends the per-element contributions. -/
theorem foldl_append_eq {α β : Type} (g : β → List α) :
    ∀ (l : List β) (init : List α),
      l.foldl (fun acc x => acc ++ g x) init = init ++ l.flatMap g := by
  intro l
  induction l with
  | nil => intro init; simp
  | cons b t ih => intro init; simp [ih]

/-- A `+=`-style `foldl` sums the per-element contributions. -/
theorem foldl_add_eq {β : Type} (f : β → ℚ) :
    ∀ (l : List β) (a : ℚ),
      l.foldl (fun acc x => acc + f x) a = a + (l.map f).sum := by
  intro l
  induction l with
  | nil => intro a; simp
  | cons b t ih => intro a; simp [ih]; ring

/-! ## Correctness of the breadth-first search `getConnectedNodeIds` -/

namespace MNACircuit

/-- The visited set after `k` rounds of expansion from `node`. -/
def reachSet (c : MNACircuit) (node : ℕ) (k : ℕ) : List ℕ :=
  (expandOnce c)^[k] [node]

theorem getConnectedNodeIds_eq_reachSet (c : MNACircuit) (node : ℕ) :
    getConnectedNodeIds c node = reachSet c node (mentionedNodes c).length :=
  rfl

theorem adj_symm {c : MNACircuit} {a b : ℕ} (h : Adj c a b) : Adj c b a := by
  simp only [Adj, Adjb, List.any_eq_true, decide_eq_true_eq] at h ⊢
  obtain ⟨e, he, h1 | h2⟩ := h
  · exact ⟨e, he, Or.inr h1⟩
  · exact ⟨e, he, Or.inl h2⟩

theorem adj_mem_mentioned {c : MNACircuit} {a b : ℕ} (h : Adj c a b) :
    b ∈ mentionedNodes c := by
  simp only [Adj, Adjb, List.any_eq_true, decide_eq_true_eq] at h
  obtain ⟨e, he, ⟨h0, h1⟩ | ⟨h0, h1⟩⟩ := h <;>
    simp only [mentionedNodes, List.mem_flatMap] <;>
    exact ⟨e, he, by simp [h0, h1]⟩

theorem subset_expandOnce (c : MNACircuit) (s : List ℕ) :
    s ⊆ expandOnce c s := by
  intro x hx
  simp only [expandOnce, List.mem_dedup, List.mem_append]
  exact Or.inl hx

theorem expandOnce_sound {c : MNACircuit} {s : List ℕ} {x : ℕ}
    (h : x ∈ expandOnce c s) : x ∈ s ∨ ∃ v ∈ s, Adj c v x := by
  simp only [expandOnce, List.mem_dedup, List.mem_append, List.mem_filter,
    List.any_eq_true] at h
  rcases h with h | ⟨_, v, hv, hadj⟩
  · exact Or.inl h
  · exact Or.inr ⟨v, hv, hadj⟩

theorem expandOnce_congr {c : MNACircuit} {s t : List ℕ}
    (h : ∀ y, y ∈ s ↔ y ∈ t) (x : ℕ) :
    x ∈ expandOnce c s ↔ x ∈ expandOnce c t := by
  simp only [expandOnce, List.mem_dedup, List.mem_append, List.mem_filter,
    List.any_eq_true]
  constructor
  · rintro (hx | ⟨hm, v, hv, hadj⟩)
    · exact Or.inl ((h x).mp hx)
    · exact Or.inr ⟨hm, v, (h v).mp hv, hadj⟩
  · rintro (hx | ⟨hm, v, hv, hadj⟩)
    · exact Or.inl ((h x).mpr hx)
    · exact Or.inr ⟨hm, v, (h v).mpr hv, hadj⟩

theorem expandOnce_mem_adj {c : MNACircuit} {s : List ℕ} {v x : ℕ}
    (hv : v ∈ s) (hadj : Adj c v x) : x ∈ expandOnce c s := by
  simp only [expandOnce, List.mem_dedup, List.mem_append, List.mem_filter,
    List.any_eq_true]
  exact Or.inr ⟨adj_mem_mentioned hadj, v, hv, hadj⟩

theorem nodup_reachSet (c : MNACircuit) (node : ℕ) :
    ∀ k, (reachSet c node k).Nodup := by
  intro k
  cases k with
  | zero => simp [reachSet]
  | succ k =>
    rw [reachSet, Function.iterate_succ_apply']
    exact List.nodup_dedup _

theorem reachSet_subset_succ (c : MNACircuit) (node k : ℕ) :
    reachSet c node k ⊆ reachSet c node (k + 1) := by
  rw [reachSet, reachSet, Function.iterate_succ_apply']
  exact subset_expandOnce c _

theorem reachSet_zero_subset (c : MNACircuit) (node : ℕ) :
    ∀ k, reachSet c node 0 ⊆ reachSet c node k := by
  intro k
  induction k with
  | zero => exact fun x hx => hx
  | succ k ih => exact fun x hx => reachSet_subset_succ c node k (ih hx)

theorem reachSet_subset_univ (c : MNACircuit) (node : ℕ) :
    ∀ k, reachSet c node k ⊆ node :: mentionedNodes c := by
  intro k
  induction k with
  | zero =>
    intro x hx
    simp only [reachSet, Function.iterate_zero, id, List.mem_singleton] at hx
    exact hx ▸ List.mem_cons_self _ _
  | succ k ih =>
    intro x hx
    rw [reachSet, Function.iterate_succ_apply'] at hx
    simp only [expandOnce, List.mem_dedup, List.mem_append,
      List.mem_filter] at hx
    rcases hx with hx | ⟨hm, _⟩
    · exact ih hx
    · exact List.mem_cons_of_mem _ hm

theorem reachSet_sound (c : MNACircuit) (node : ℕ) :
    ∀ k x, x ∈ reachSet c node k → Connected c node x := by
  intro k
  induction k with
  | zero =>
    intro x hx
    simp only [reachSet, Function.iterate_zero, id, List.mem_singleton] at hx
    exact hx ▸ Relation.ReflTransGen.refl
  | succ k ih =>
    intro x hx
    rw [reachSet, Function.iterate_succ_apply'] at hx
    rcases expandOnce_sound hx with hx | ⟨v, hv, hadj⟩
    · exact ih x hx
    · exact Relation.ReflTransGen.tail (ih v hv) hadj

theorem reachSet_closed_propagates {c : MNACircuit} {node k : ℕ}
    (hcl : expandOnce c (reachSet c node k) ⊆ reachSet c node k) :
    ∀ d y, y ∈ reachSet c node (k + d) ↔ y ∈ reachSet c node k := by
  intro d
  induction d with
  | zero => intro y; rfl
  | succ d ih =>
    intro y
    have : reachSet c node (k + (d + 1)) = expandOnce c (reachSet c node (k + d)) := by
      rw [show k + (d + 1) = (k + d) + 1 from rfl, reachSet,
        Function.iterate_succ_apply']
      rfl
    rw [this]
    constructor
    · intro hy
      have := (expandOnce_congr ih y).mp hy
      exact hcl this
    · intro hy
      exact (expandOnce_congr ih y).mpr (subset_expandOnce c _ hy)

theorem reachSet_growth {c : MNACircuit} {node k : ℕ}
    (hnot : ¬ expandOnce c (reachSet c node k) ⊆ reachSet c node k) :
    (reachSet c node k).length + 1 ≤ (reachSet c node (k + 1)).length := by
  have hsub : reachSet c node k ⊆ reachSet c node (k + 1) :=
    reachSet_subset_succ c node k
  have hsp : List.Subperm (reachSet c node k) (reachSet c node (k + 1)) :=
    List.subperm_of_subset (nodup_reachSet c node k) hsub
  by_contra hlen
  push_neg at hlen
  have hle : (reachSet c node (k + 1)).length ≤ (reachSet c node k).length := by
    omega
  have hperm := hsp.perm_of_length_le hle
  apply hnot
  intro x hx
  have : x ∈ reachSet c node (k + 1) := by
    rw [reachSet, Function.iterate_succ_apply']; exact hx
  exact hperm.mem_iff.mpr this

theorem reachSet_saturated (c : MNACircuit) (node : ℕ) :
    expandOnce c (reachSet c node (mentionedNodes c).length) ⊆
      reachSet c node (mentionedNodes c).length := by
  set N := (mentionedNodes c).length with hN
  by_contra hnot
  -- no earlier round is closed either, else closedness would propagate to N
  have hnone : ∀ k ≤ N, ¬ expandOnce c (reachSet c node k) ⊆ reachSet c node k := by
    intro k hk hcl
    obtain ⟨d, hd⟩ := Nat.exists_eq_add_of_le hk
    apply hnot
    intro x hx
    have hmem : ∀ y, y ∈ reachSet c node N ↔ y ∈ reachSet c node k := by
      intro y; rw [hd]; exact reachSet_closed_propagates hcl d y
    have hx' : x ∈ expandOnce c (reachSet c node k) :=
      (expandOnce_congr hmem x).mp hx
    exact (hmem x).mpr (hcl hx')
  -- so the visited set grows strictly every round up to N
  have hgrow : ∀ k ≤ N, k + 1 ≤ (reachSet c node k).length := by
    intro k
    induction k with
    | zero => intro _; simp [reachSet]
    | succ k ih =>
      intro hk
      have h1 := ih (Nat.le_of_succ_le hk)
      have h2 := reachSet_growth (hnone k (Nat.le_of_succ_le hk))
      omega
  -- but it stays inside the deduplicated universe of size at most N + 1
  have huniv : reachSet c node N ⊆ (node :: mentionedNodes c).dedup := by
    intro x hx
    rw [List.mem_dedup]
    exact reachSet_subset_univ c node N hx
  have hsp : List.Subperm (reachSet c node N) ((node :: mentionedNodes c).dedup) :=
    List.subperm_of_subset (nodup_reachSet c node N) huniv
  have hlenN : N + 1 ≤ (reachSet c node N).length := hgrow N (le_refl N)
  have hlenU : ((node :: mentionedNodes c).dedup).length ≤ N + 1 := by
    calc ((node :: mentionedNodes c).dedup).length
        ≤ (node :: mentionedNodes c).length := List.Sublist.length_le (List.dedup_sublist _)
      _ = N + 1 := by simp [hN]
  -- hence round N already covers the whole universe and is closed after all
  have hperm := hsp.perm_of_length_le (by omega)
  apply hnot
  intro x hx
  rcases expandOnce_sound hx with hx' | ⟨v, _, hadj⟩
  · exact hx'
  · have : x ∈ (node :: mentionedNodes c).dedup := by
      rw [List.mem_dedup]
      exact List.mem_cons_of_mem _ (adj_mem_mentioned hadj)
    exact hperm.mem_iff.mpr this

/-- Correctness of the breadth-first search: `getConnectedNodeIds` finds
exactly the nodes connected to the given node by some path of elements. -/
theorem mem_getConnectedNodeIds_iff (c : MNACircuit) (node x : ℕ) :
    x ∈ getConnectedNodeIds c node ↔ Connected c node x := by
  rw [getConnectedNodeIds_eq_reachSet]
  constructor
  · exact reachSet_sound c node _ x
  · intro h
    induction h with
    | refl =>
      exact reachSet_zero_subset c node _ (by simp [reachSet])
    | tail hconn hadj ih =>
      exact reachSet_saturated c node (expandOnce_mem_adj ih hadj)

theorem connected_refl (c : MNACircuit) (x : ℕ) : Connected c x x :=
  Relation.ReflTransGen.refl

theorem connected_symm {c : MNACircuit} {a b : ℕ} (h : Connected c a b) :
    Connected c b a :=
  Relation.ReflTransGen.symmetric (fun _ _ hadj => adj_symm hadj) h

theorem connected_trans {c : MNACircuit} {a b d : ℕ} (h1 : Connected c a b)
    (h2 : Connected c b d) : Connected c a d :=
  Relation.ReflTransGen.trans h1 h2

theorem refSelect_subset (c : MNACircuit) :
    ∀ (fuel : ℕ) (L : List ℕ), refSelect c fuel L ⊆ L := by
  intro fuel
  induction fuel with
  | zero => intro L; cases L <;> simp [refSelect]
  | succ fuel ih =>
    intro L
    cases L with
    | nil => simp [refSelect]
    | cons n rest =>
      rw [refSelect]
      intro x hx
      rcases List.mem_cons.mp hx with hx | hx
      · exact hx ▸ List.mem_cons_self _ _
      · exact List.mem_cons_of_mem _ (List.mem_of_mem_filter (ih _ hx))

theorem refSelect_covers (c : MNACircuit) :
    ∀ (fuel : ℕ) (L : List ℕ), L.length ≤ fuel →
      ∀ x ∈ L, ∃ r ∈ refSelect c fuel L, Connected c r x := by
  intro fuel
  induction fuel with
  | zero =>
    intro L hL x hx
    cases L with
    | nil => simp at hx
    | cons n rest => simp at hL
  | succ fuel ih =>
    intro L hL x hx
    cases L with
    | nil => simp at hx
    | cons n rest =>
      by_cases hconn : x ∈ c.getConnectedNodeIds n
      · exact ⟨n, by rw [refSelect]; exact List.mem_cons_self _ _,
          (mem_getConnectedNodeIds_iff c n x).mp hconn⟩
      · have hxr : x ∈ rest := by
          rcases List.mem_cons.mp hx with hx | hx
          · exact absurd ((mem_getConnectedNodeIds_iff c n x).mpr
              (hx ▸ connected_refl c n)) hconn
          · exact hx
        have hxf : x ∈ rest.filter (fun m => ¬ m ∈ c.getConnectedNodeIds n) := by
          simp only [List.mem_filter, decide_eq_true_eq]
          exact ⟨hxr, hconn⟩
        have hlen : (rest.filter
            (fun m => ¬ m ∈ c.getConnectedNodeIds n)).length ≤ fuel := by
          have h1 := List.length_filter_le
            (fun m => decide (¬ m ∈ c.getConnectedNodeIds n)) rest
          simp only [List.length_cons] at hL
          omega
        obtain ⟨r, hr, hc⟩ := ih _ hlen x hxf
        exact ⟨r, by rw [refSelect]; exact List.mem_cons_of_mem _ hr, hc⟩

theorem refSelect_pairwise (c : MNACircuit) :
    ∀ (fuel : ℕ) (L : List ℕ),
      (refSelect c fuel L).Pairwise (fun a b => ¬ Connected c a b) := by
  intro fuel
  induction fuel with
  | zero => intro L; cases L <;> simp [refSelect]
  | succ fuel ih =>
    intro L
    cases L with
    | nil => simp [refSelect]
    | cons n rest =>
      rw [refSelect]
      refine List.Pairwise.cons ?_ (ih _)
      intro r hr hcontra
      have hrf := refSelect_subset c _ _ hr
      simp only [List.mem_filter, decide_eq_true_eq] at hrf
      exact hrf.2 ((mem_getConnectedNodeIds_iff c n r).mpr hcontra)

end MNACircuit

/-! ## Claim C6: one reference equation per connected component -/

/-- C6: the equation set opens with exactly the reference equations
`V = 0`, one per chosen reference node; the chosen reference nodes are
nodes of the circuit; every node is connected to exactly one chosen
reference node; and no two distinct chosen reference nodes are connected
(adjacency being created by any element between its two terminal nodes). -/
theorem C6_reference_equation_per_component (c : MNACircuit) (x : ℕ)
    (hx : x ∈ MNACircuit.nodes c) :
    (∃ rest, MNACircuit.getEquations c =
        (MNACircuit.getReferenceNodeIds c).map
          (fun r => ⟨0, [⟨1, Unknown.voltage r⟩]⟩) ++ rest) ∧
    MNACircuit.getReferenceNodeIds c ⊆ MNACircuit.nodes c ∧
    (∃! r, r ∈ MNACircuit.getReferenceNodeIds c ∧ MNACircuit.Connected c r x) ∧
    (∀ r1 ∈ MNACircuit.getReferenceNodeIds c,
      ∀ r2 ∈ MNACircuit.getReferenceNodeIds c,
        r1 ≠ r2 → ¬ MNACircuit.Connected c r1 r2) := by
  have hpw := MNACircuit.refSelect_pairwise c
    (MNACircuit.nodes c).length (MNACircuit.nodes c)
  have hsymm : Symmetric (fun a b => ¬ MNACircuit.Connected c a b) := by
    intro a b hab hba
    exact hab (MNACircuit.connected_symm hba)
  have hsep : ∀ r1 ∈ MNACircuit.getReferenceNodeIds c,
      ∀ r2 ∈ MNACircuit.getReferenceNodeIds c,
        r1 ≠ r2 → ¬ MNACircuit.Connected c r1 r2 := by
    intro r1 h1 r2 h2 hne
    exact hpw.forall hsymm h1 h2 hne
  refine ⟨⟨MNACircuit.kclEquations c ++ MNACircuit.batteryEquations c ++
      MNACircuit.zeroResistorEquations c, by
        simp [MNACircuit.getEquations, MNACircuit.referenceEquations]⟩,
    MNACircuit.refSelect_subset c _ _, ?_, hsep⟩
  obtain ⟨r, hr, hcr⟩ := MNACircuit.refSelect_covers c
    (MNACircuit.nodes c).length (MNACircuit.nodes c) (le_refl _) x hx
  refine ⟨r, ⟨hr, hcr⟩, ?_⟩
  intro r' ⟨hr', hcr'⟩
  by_contra hne
  exact hsep r' hr' r hr hne
    (MNACircuit.connected_trans hcr' (MNACircuit.connected_symm hcr))

/-- Witness for C6 at a circuit with two connected components: a battery
between nodes 0, 1 and a resistor between nodes 2, 3. -/
theorem C6_reference_equation_per_component_witness :
    (0 ∈ MNACircuit.nodes
        ⟨[⟨0, 0, 1, 4, none⟩], [⟨5, 2, 3, 5, none⟩], []⟩) ∧
    ((∃ rest, MNACircuit.getEquations
          ⟨[⟨0, 0, 1, 4, none⟩], [⟨5, 2, 3, 5, none⟩], []⟩ =
        (MNACircuit.getReferenceNodeIds
            ⟨[⟨0, 0, 1, 4, none⟩], [⟨5, 2, 3, 5, none⟩], []⟩).map
          (fun r => ⟨0, [⟨1, Unknown.voltage r⟩]⟩) ++ rest) ∧
      MNACircuit.getReferenceNodeIds
          ⟨[⟨0, 0, 1, 4, none⟩], [⟨5, 2, 3, 5, none⟩], []⟩ ⊆
        MNACircuit.nodes ⟨[⟨0, 0, 1, 4, none⟩], [⟨5, 2, 3, 5, none⟩], []⟩ ∧
      (∃! r, r ∈ MNACircuit.getReferenceNodeIds
          ⟨[⟨0, 0, 1, 4, none⟩], [⟨5, 2, 3, 5, none⟩], []⟩ ∧
        MNACircuit.Connected
          ⟨[⟨0, 0, 1, 4, none⟩], [⟨5, 2, 3, 5, none⟩], []⟩ r 0) ∧
      (∀ r1 ∈ MNACircuit.getReferenceNodeIds
          ⟨[⟨0, 0, 1, 4, none⟩], [⟨5, 2, 3, 5, none⟩], []⟩,
        ∀ r2 ∈ MNACircuit.getReferenceNodeIds
          ⟨[⟨0, 0, 1, 4, none⟩], [⟨5, 2, 3, 5, none⟩], []⟩,
          r1 ≠ r2 → ¬ MNACircuit.Connected
            ⟨[⟨0, 0, 1, 4, none⟩], [⟨5, 2, 3, 5, none⟩], []⟩ r1 r2)) :=
  ⟨by decide, C6_reference_equation_per_component _ 0 (by decide)⟩

/-! ## Claim C1: fail-soft all-zero fallback on decomposition failure -/

theorem getD_replicate_zero (n i : ℕ) :
    (List.replicate n (0 : ℚ)).getD i 0 = 0 := by
  rw [List.getD_eq_getElem?_getD, List.getElem?_replicate]
  by_cases h : i < n <;> simp [h]

theorem mem_getUnknownCurrents_of_battery {c : MNACircuit} {b : MNAElement}
    (hb : b ∈ c.batteries) :
    Unknown.current b.elementId ∈ MNACircuit.getUnknownCurrents c := by
  unfold MNACircuit.getUnknownCurrents
  exact List.mem_append_left _ (List.mem_map_of_mem _ hb)

theorem mem_getUnknownCurrents_of_zeroResistor {c : MNACircuit}
    {r : MNAElement} (hr : r ∈ c.resistors) (hv : r.value = 0) :
    Unknown.current r.elementId ∈ MNACircuit.getUnknownCurrents c := by
  unfold MNACircuit.getUnknownCurrents
  refine List.mem_append_right _ (List.mem_map_of_mem _ ?_)
  simp only [List.mem_filter, decide_eq_true_eq]
  exact ⟨hr, hv⟩

/-- C1: when the QR decomposition throws (the abstract solver `lin` returns
`none`), `solve` does not propagate the failure: it substitutes the
all-zero vector of dimension `getNumVars` and returns a `Solution` whose
node voltages are all `0` and whose unknown branch currents (each battery
and each zero-resistance resistor) are all `0`. -/
theorem C1_singular_system_zero_fallback (c : MNACircuit)
    (lin : List Equation → List Unknown → Option (List ℚ))
    (hfail : lin (MNACircuit.getEquations c) (MNACircuit.unknownsList c) = none) :
    (MNACircuit.solveWith c lin).1.voltageMap =
      (MNACircuit.nodes c).map (fun n => (n, (0 : ℚ))) ∧
    (∀ e ∈ (MNACircuit.solveWith c lin).1.elements,
      e.currentSolution = some 0) ∧
    (∀ b ∈ (MNACircuit.solveWith c lin).2.batteries,
      b.currentSolution = some 0) ∧
    (∀ r ∈ (MNACircuit.solveWith c lin).2.resistors, r.value = 0 →
      r.currentSolution = some 0) ∧
    (MNACircuit.solveWith c lin).1.elements.length =
      MNACircuit.getCurrentCount c := by
  simp only [MNACircuit.solveWith, hfail, Option.getD_none]
  have hzero : ∀ u : Unknown,
      assignOf (MNACircuit.unknownsList c)
        (List.replicate (MNACircuit.getNumVars c) 0) u = 0 := by
    intro u
    unfold assignOf
    exact getD_replicate_zero _ _
  refine ⟨?_, ?_, ?_, ?_, ?_⟩
  · simp [hzero]
  · intro e he
    simp only [List.mem_map] at he
    obtain ⟨e0, he0, rfl⟩ := he
    rcases List.mem_append.mp he0 with h | h
    · simp [mem_getUnknownCurrents_of_battery h, hzero]
    · simp only [List.mem_filter, decide_eq_true_eq] at h
      simp [mem_getUnknownCurrents_of_zeroResistor h.1 h.2, hzero]
  · intro b hb
    simp only [List.mem_map] at hb
    obtain ⟨b0, hb0, rfl⟩ := hb
    simp [mem_getUnknownCurrents_of_battery hb0, hzero]
  · intro r hr
    simp only [List.mem_map] at hr
    obtain ⟨r0, hr0, rfl⟩ := hr
    by_cases hmem : Unknown.current r0.elementId ∈ MNACircuit.getUnknownCurrents c
    · intro _
      simp [hmem, hzero]
    · intro hv
      simp only [hmem, if_false]
      simp only [hmem, if_false] at hv
      exact absurd (mem_getUnknownCurrents_of_zeroResistor hr0 hv) hmem
  · simp only [List.length_map, List.length_append]
    rfl

/-- Witness for C1: a battery-plus-resistor circuit under a solver that
always fails. -/
theorem C1_singular_system_zero_fallback_witness :
    ((fun _ _ => none : List Equation → List Unknown → Option (List ℚ))
        (MNACircuit.getEquations ⟨[⟨0, 0, 1, 4, none⟩], [⟨1, 1, 0, 4, none⟩], []⟩)
        (MNACircuit.unknownsList ⟨[⟨0, 0, 1, 4, none⟩], [⟨1, 1, 0, 4, none⟩], []⟩)
      = none) ∧
    ((MNACircuit.solveWith ⟨[⟨0, 0, 1, 4, none⟩], [⟨1, 1, 0, 4, none⟩], []⟩
        (fun _ _ => none)).1.voltageMap =
      (MNACircuit.nodes ⟨[⟨0, 0, 1, 4, none⟩], [⟨1, 1, 0, 4, none⟩], []⟩).map
        (fun n => (n, (0 : ℚ))) ∧
      (∀ e ∈ (MNACircuit.solveWith ⟨[⟨0, 0, 1, 4, none⟩],
          [⟨1, 1, 0, 4, none⟩], []⟩ (fun _ _ => none)).1.elements,
        e.currentSolution = some 0) ∧
      (∀ b ∈ (MNACircuit.solveWith ⟨[⟨0, 0, 1, 4, none⟩],
          [⟨1, 1, 0, 4, none⟩], []⟩ (fun _ _ => none)).2.batteries,
        b.currentSolution = some 0) ∧
      (∀ r ∈ (MNACircuit.solveWith ⟨[⟨0, 0, 1, 4, none⟩],
          [⟨1, 1, 0, 4, none⟩], []⟩ (fun _ _ => none)).2.resistors,
        r.value = 0 → r.currentSolution = some 0) ∧
      (MNACircuit.solveWith ⟨[⟨0, 0, 1, 4, none⟩], [⟨1, 1, 0, 4, none⟩], []⟩
        (fun _ _ => none)).1.elements.length =
        MNACircuit.getCurrentCount
          ⟨[⟨0, 0, 1, 4, none⟩], [⟨1, 1, 0, 4, none⟩], []⟩) :=
  ⟨rfl, C1_singular_system_zero_fallback _ _ rfl⟩

/-! ## Claim C5: unknowns and the zero-resistance branch of `getCurrentTerms` -/

namespace MNACircuit

theorem getCurrentTerms_eq (c : MNACircuit) (node : ℕ) (side : NodeSide)
    (sign : ℚ) (nodeTerms : List Term) :
    getCurrentTerms c node side sign nodeTerms =
      nodeTerms ++
        c.batteries.flatMap (fun b => batteryContribution b node side sign) ++
        c.resistors.flatMap (fun r => resistorContribution r node side sign) := by
  unfold getCurrentTerms
  rw [foldl_append_eq, foldl_append_eq]

theorem kclTerms_eq (c : MNACircuit) (node : ℕ) :
    kclTerms c node =
      c.batteries.flatMap
          (fun b => batteryContribution b node NodeSide.side1 (-1)) ++
        c.resistors.flatMap
          (fun r => resistorContribution r node NodeSide.side1 (-1)) ++
        c.batteries.flatMap
          (fun b => batteryContribution b node NodeSide.side0 1) ++
        c.resistors.flatMap
          (fun r => resistorContribution r node NodeSide.side0 1) := by
  unfold kclTerms
  rw [getCurrentTerms_eq, getCurrentTerms_eq]
  simp

theorem batteries_ids_nodup {c : MNACircuit} (h : idsNodup c) :
    (c.batteries.map MNAElement.elementId).Nodup := by
  unfold idsNodup elements at h
  rw [List.map_append, List.map_append] at h
  exact h.of_append_left.of_append_left

theorem resistors_ids_nodup {c : MNACircuit} (h : idsNodup c) :
    (c.resistors.map MNAElement.elementId).Nodup := by
  unfold idsNodup elements at h
  rw [List.map_append, List.map_append] at h
  exact h.of_append_left.of_append_right

theorem battery_resistor_ids_disjoint {c : MNACircuit} (h : idsNodup c)
    {b r : MNAElement} (hb : b ∈ c.batteries) (hr : r ∈ c.resistors) :
    b.elementId ≠ r.elementId := by
  unfold idsNodup elements at h
  rw [List.map_append, List.map_append] at h
  have h1 := h.of_append_left
  intro heq
  exact List.disjoint_of_nodup_append h1 (List.mem_map_of_mem _ hb)
    (by rw [heq]; exact List.mem_map_of_mem _ hr)

theorem resistor_id_inj {c : MNACircuit} (h : idsNodup c) {s r : MNAElement}
    (hs : s ∈ c.resistors) (hr : r ∈ c.resistors)
    (heq : s.elementId = r.elementId) : s = r :=
  List.inj_on_of_nodup_map (resistors_ids_nodup h) hs hr heq

theorem nodup_currentUnknowns {l : List MNAElement}
    (h : (l.map MNAElement.elementId).Nodup) :
    (l.map (fun e => Unknown.current e.elementId)).Nodup := by
  have h2 := h.map (f := Unknown.current) (fun a b hab => by simpa using hab)
  simpa [List.map_map, Function.comp] using h2

/-- The current unknown of a resistor appears among the KCL terms of a node
precisely when the resistor touches the node and has exactly zero
resistance. -/
theorem kcl_current_term_iff (c : MNACircuit) (h : idsNodup c)
    {r : MNAElement} (hr : r ∈ c.resistors) (node : ℕ) :
    (∃ t ∈ kclTerms c node, t.variable' = Unknown.current r.elementId) ↔
      (r.value = 0 ∧ (r.nodeId0 = node ∨ r.nodeId1 = node)) := by
  rw [kclTerms_eq]
  constructor
  · rintro ⟨t, ht, hv⟩
    simp only [List.mem_append, List.mem_flatMap] at ht
    rcases ht with ((⟨b, hb, htb⟩ | ⟨s, hs, hts⟩) | ⟨b, hb, htb⟩) | ⟨s, hs, hts⟩
    · unfold batteryContribution at htb
      split at htb
      · simp only [List.mem_singleton] at htb
        subst htb
        exact absurd (by simpa using hv)
          (battery_resistor_ids_disjoint h hb hr)
      · simp at htb
    · unfold resistorContribution at hts
      split at hts
      next hside =>
        split at hts
        next hsv =>
          simp only [List.mem_singleton] at hts
          subst hts
          have hsr : s = r := resistor_id_inj h hs hr (by simpa using hv)
          subst hsr
          exact ⟨hsv, Or.inr (by simpa [MNAElement.onSide] using hside)⟩
        next hsv =>
          simp only [List.mem_cons, List.not_mem_nil, or_false] at hts
          rcases hts with hts | hts <;> (subst hts; simp at hv)
      next hside => simp at hts
    · unfold batteryContribution at htb
      split at htb
      · simp only [List.mem_singleton] at htb
        subst htb
        exact absurd (by simpa using hv)
          (battery_resistor_ids_disjoint h hb hr)
      · simp at htb
    · unfold resistorContribution at hts
      split at hts
      next hside =>
        split at hts
        next hsv =>
          simp only [List.mem_singleton] at hts
          subst hts
          have hsr : s = r := resistor_id_inj h hs hr (by simpa using hv)
          subst hsr
          exact ⟨hsv, Or.inl (by simpa [MNAElement.onSide] using hside)⟩
        next hsv =>
          simp only [List.mem_cons, List.not_mem_nil, or_false] at hts
          rcases hts with hts | hts <;> (subst hts; simp at hv)
      next hside => simp at hts
  · rintro ⟨hv0, hside | hside⟩
    · refine ⟨⟨1, Unknown.current r.elementId⟩, ?_, rfl⟩
      refine List.mem_append_right _ ?_
      rw [List.mem_flatMap]
      exact ⟨r, hr, by simp [resistorContribution, MNAElement.onSide, hside, hv0]⟩
    · refine ⟨⟨-1, Unknown.current r.elementId⟩, ?_, rfl⟩
      refine List.mem_append_left _ (List.mem_append_left _
        (List.mem_append_right _ ?_))
      rw [List.mem_flatMap]
      exact ⟨r, hr, by simp [resistorContribution, MNAElement.onSide, hside, hv0]⟩

end MNACircuit

/-- C5: the ordered unknown list has exactly one voltage variable per
distinct node id, one current variable per battery, and one current
variable per resistor whose value is exactly `0` (tested by exact equality;
a nonzero resistor contributes no unknown current); and in a node's KCL
terms a resistor contributes an unknown-current term iff its value equals
`0`, contributing the two Ohm's-law conductance terms `± 1/R` otherwise. -/
theorem C5_unknowns_and_zero_resistance_branch (c : MNACircuit)
    (h : idsNodup c) :
    ((MNACircuit.unknownsList c).length = MNACircuit.getNumVars c ∧
      MNACircuit.getNumVars c = MNACircuit.nodeCount c + c.batteries.length +
        (c.resistors.filter (fun r => r.value = 0)).length) ∧
    (∀ n : ℕ, (MNACircuit.unknownsList c).count (Unknown.voltage n) =
      if n ∈ MNACircuit.nodes c then 1 else 0) ∧
    (∀ b ∈ c.batteries,
      (MNACircuit.unknownsList c).count (Unknown.current b.elementId) = 1) ∧
    (∀ r ∈ c.resistors,
      (MNACircuit.unknownsList c).count (Unknown.current r.elementId) =
        if r.value = 0 then 1 else 0) ∧
    (∀ node : ℕ, ∀ r ∈ c.resistors,
      ((∃ t ∈ MNACircuit.kclTerms c node,
          t.variable' = Unknown.current r.elementId) ↔
        (r.value = 0 ∧ (r.nodeId0 = node ∨ r.nodeId1 = node))) ∧
      (r.value ≠ 0 → r.nodeId0 = node →
        Term.mk (-1 / r.value) (Unknown.voltage r.nodeId1) ∈
            MNACircuit.kclTerms c node ∧
          Term.mk (1 / r.value) (Unknown.voltage r.nodeId0) ∈
            MNACircuit.kclTerms c node) ∧
      (r.value ≠ 0 → r.nodeId1 = node →
        Term.mk (1 / r.value) (Unknown.voltage r.nodeId1) ∈
            MNACircuit.kclTerms c node ∧
          Term.mk (-1 / r.value) (Unknown.voltage r.nodeId0) ∈
            MNACircuit.kclTerms c node)) := by
  have hbn := MNACircuit.batteries_ids_nodup h
  have hrn := MNACircuit.resistors_ids_nodup h
  refine ⟨⟨?_, ?_⟩, ?_, ?_, ?_, ?_⟩
  · simp only [MNACircuit.unknownsList, MNACircuit.getUnknownCurrents,
      MNACircuit.getNumVars, MNACircuit.getCurrentCount, MNACircuit.nodeCount,
      List.length_append, List.length_map]
    omega
  · simp only [MNACircuit.getNumVars, MNACircuit.getCurrentCount,
      MNACircuit.nodeCount]
    omega
  · intro n
    unfold MNACircuit.unknownsList MNACircuit.getUnknownCurrents
    rw [List.count_append, List.count_append]
    rw [List.count_eq_zero.mpr (by simp), List.count_eq_zero.mpr (by simp)]
    by_cases hn : n ∈ MNACircuit.nodes c
    · have hnodup : ((MNACircuit.nodes c).map Unknown.voltage).Nodup :=
        (List.nodup_dedup _).map (fun a b hab => by simpa using hab)
      rw [List.count_eq_one_of_mem hnodup (List.mem_map_of_mem _ hn)]
      simp [hn]
    · rw [List.count_eq_zero.mpr (by simp [hn])]
      simp [hn]
  · intro b hb
    unfold MNACircuit.unknownsList MNACircuit.getUnknownCurrents
    rw [List.count_append, List.count_append]
    have h1 : (c.batteries.map
        (fun e => Unknown.current e.elementId)).count
          (Unknown.current b.elementId) = 1 :=
      List.count_eq_one_of_mem (MNACircuit.nodup_currentUnknowns hbn)
        (List.mem_map_of_mem _ hb)
    have h2 : (((c.resistors.filter (fun r => r.value = 0)).map
        (fun r => Unknown.current r.elementId))).count
          (Unknown.current b.elementId) = 0 := by
      rw [List.count_eq_zero]
      simp only [List.mem_map, List.mem_filter, not_exists]
      rintro s ⟨⟨hs, _⟩, heq⟩
      exact MNACircuit.battery_resistor_ids_disjoint h hb hs
        (by simpa using heq.symm)
    have h3 : (((MNACircuit.nodes c).map Unknown.voltage)).count
        (Unknown.current b.elementId) = 0 := by
      rw [List.count_eq_zero]; simp
    rw [h1, h2, h3]
  · intro r hr
    unfold MNACircuit.unknownsList MNACircuit.getUnknownCurrents
    rw [List.count_append, List.count_append]
    have h1 : (c.batteries.map
        (fun e => Unknown.current e.elementId)).count
          (Unknown.current r.elementId) = 0 := by
      rw [List.count_eq_zero]
      simp only [List.mem_map, not_exists]
      rintro b ⟨hb, heq⟩
      exact MNACircuit.battery_resistor_ids_disjoint h hb hr (by simpa using heq)
    have h3 : (((MNACircuit.nodes c).map Unknown.voltage)).count
        (Unknown.current r.elementId) = 0 := by
      rw [List.count_eq_zero]; simp
    rw [h1, h3]
    by_cases hv : r.value = 0
    · have hmem : r ∈ c.resistors.filter (fun s => s.value = 0) := by
        simp only [List.mem_filter, decide_eq_true_eq]; exact ⟨hr, hv⟩
      have hfn : ((c.resistors.filter (fun s => s.value = 0)).map
          MNAElement.elementId).Nodup :=
        hrn.sublist ((List.filter_sublist _).map _)
      rw [List.count_eq_one_of_mem (MNACircuit.nodup_currentUnknowns hfn)
        (List.mem_map_of_mem _ hmem)]
      simp [hv]
    · have h2 : (((c.resistors.filter (fun s => s.value = 0)).map
          (fun s => Unknown.current s.elementId))).count
            (Unknown.current r.elementId) = 0 := by
        rw [List.count_eq_zero]
        simp only [List.mem_map, List.mem_filter, not_exists]
        rintro s ⟨⟨hs, hsv⟩, heq⟩
        have hsr : s = r :=
          MNACircuit.resistor_id_inj h hs hr (by simpa using heq)
        exact hv (hsr ▸ (by simpa using hsv))
      rw [h2]
      simp [hv]
  · intro node r hr
    refine ⟨MNACircuit.kcl_current_term_iff c h hr node, ?_, ?_⟩
    · intro hv hside
      constructor
      · rw [MNACircuit.kclTerms_eq]
        refine List.mem_append_right _ ?_
        rw [List.mem_flatMap]
        exact ⟨r, hr, by
          simp [MNACircuit.resistorContribution, MNAElement.onSide, hside, hv]⟩
      · rw [MNACircuit.kclTerms_eq]
        refine List.mem_append_right _ ?_
        rw [List.mem_flatMap]
        exact ⟨r, hr, by
          simp [MNACircuit.resistorContribution, MNAElement.onSide, hside, hv]⟩
    · intro hv hside
      constructor
      · rw [MNACircuit.kclTerms_eq]
        refine List.mem_append_left _ (List.mem_append_left _
          (List.mem_append_right _ ?_))
        rw [List.mem_flatMap]
        refine ⟨r, hr, ?_⟩
        simp only [MNACircuit.resistorContribution, MNAElement.onSide, hside,
          if_true, if_neg hv]
        norm_num
      · rw [MNACircuit.kclTerms_eq]
        refine List.mem_append_left _ (List.mem_append_left _
          (List.mem_append_right _ ?_))
        rw [List.mem_flatMap]
        refine ⟨r, hr, ?_⟩
        simp only [MNACircuit.resistorContribution, MNAElement.onSide, hside,
          if_true, if_neg hv]
        norm_num

/-- Witness for C5: battery 0→1 of 4 V, a zero-resistance resistor 1→2 and
an ordinary resistor 2→0 of 2 Ω, all with distinct identities. -/
theorem C5_unknowns_and_zero_resistance_branch_witness :
    (idsNodup ⟨[⟨0, 0, 1, 4, none⟩],
      [⟨1, 1, 2, 0, none⟩, ⟨2, 2, 0, 2, none⟩], []⟩) ∧
    (MNACircuit.unknownsList ⟨[⟨0, 0, 1, 4, none⟩],
        [⟨1, 1, 2, 0, none⟩, ⟨2, 2, 0, 2, none⟩], []⟩).length =
      MNACircuit.getNumVars ⟨[⟨0, 0, 1, 4, none⟩],
        [⟨1, 1, 2, 0, none⟩, ⟨2, 2, 0, 2, none⟩], []⟩ :=
  ⟨by decide,
    (C5_unknowns_and_zero_resistance_branch _ (by decide)).1.1⟩

/-! ## Claim C8: reversing the battery voltage -/

namespace MNACircuit

/-- The element update performed by `negateBatteries` on a battery. -/
def negValue (b : MNAElement) : MNAElement := { b with value := -b.value }

theorem elements_negateBatteries (c : MNACircuit) :
    (negateBatteries c).elements =
      c.batteries.map negValue ++ c.resistors ++ c.currentSources := rfl

theorem mentionedNodes_negateBatteries (c : MNACircuit) :
    mentionedNodes (negateBatteries c) = mentionedNodes c := by
  unfold mentionedNodes
  rw [elements_negateBatteries]
  unfold elements
  rw [List.flatMap_append, List.flatMap_append, List.flatMap_append,
    List.flatMap_append]
  congr 2
  induction c.batteries with
  | nil => rfl
  | cons b t ih => simp [negValue, ih]

theorem nodes_negateBatteries (c : MNACircuit) :
    nodes (negateBatteries c) = nodes c := by
  unfold nodes
  rw [mentionedNodes_negateBatteries]

theorem Adjb_negateBatteries (c : MNACircuit) (a b : ℕ) :
    Adjb (negateBatteries c) a b = Adjb c a b := by
  unfold Adjb
  rw [elements_negateBatteries]
  unfold elements
  rw [List.any_append, List.any_append, List.any_append, List.any_append]
  congr 2
  induction c.batteries with
  | nil => rfl
  | cons e t ih => simp only [List.map_cons, List.any_cons, ih]; rfl

theorem Adjb_fun_negateBatteries (c : MNACircuit) :
    Adjb (negateBatteries c) = Adjb c := by
  funext a b
  exact Adjb_negateBatteries c a b

theorem expandOnce_negateBatteries (c : MNACircuit) (s : List ℕ) :
    expandOnce (negateBatteries c) s = expandOnce c s := by
  unfold expandOnce
  rw [mentionedNodes_negateBatteries, Adjb_fun_negateBatteries]

theorem getConnectedNodeIds_negateBatteries (c : MNACircuit) (n : ℕ) :
    getConnectedNodeIds (negateBatteries c) n = getConnectedNodeIds c n := by
  unfold getConnectedNodeIds
  rw [mentionedNodes_negateBatteries]
  have hfun : expandOnce (negateBatteries c) = expandOnce c := by
    funext s
    exact expandOnce_negateBatteries c s
  rw [hfun]

theorem refSelect_negateBatteries (c : MNACircuit) :
    ∀ (fuel : ℕ) (L : List ℕ),
      refSelect (negateBatteries c) fuel L = refSelect c fuel L := by
  intro fuel
  induction fuel with
  | zero => intro L; cases L <;> rfl
  | succ fuel ih =>
    intro L
    cases L with
    | nil => rfl
    | cons n rest =>
      rw [refSelect, refSelect]
      congr 1
      have hfn : (fun m => decide (¬ m ∈
          (negateBatteries c).getConnectedNodeIds n)) =
          (fun m => decide (¬ m ∈ c.getConnectedNodeIds n)) := by
        funext m
        rw [getConnectedNodeIds_negateBatteries]
      rw [hfn]
      exact ih _

theorem getReferenceNodeIds_negateBatteries (c : MNACircuit) :
    getReferenceNodeIds (negateBatteries c) = getReferenceNodeIds c := by
  unfold getReferenceNodeIds
  rw [nodes_negateBatteries, refSelect_negateBatteries]

theorem referenceEquations_negateBatteries (c : MNACircuit) :
    referenceEquations (negateBatteries c) = referenceEquations c := by
  unfold referenceEquations
  rw [getReferenceNodeIds_negateBatteries]

theorem kclTerms_negateBatteries (c : MNACircuit) (node : ℕ) :
    kclTerms (negateBatteries c) node = kclTerms c node := by
  rw [kclTerms_eq, kclTerms_eq]
  show (c.batteries.map negValue).flatMap _ ++ c.resistors.flatMap _ ++
      (c.batteries.map negValue).flatMap _ ++ c.resistors.flatMap _ = _
  congr 2
  · congr 1
    induction c.batteries with
    | nil => rfl
    | cons b t ih => simp only [List.map_cons, List.flatMap_cons, ih]; rfl
  · induction c.batteries with
    | nil => rfl
    | cons b t ih => simp only [List.map_cons, List.flatMap_cons, ih]; rfl

theorem getCurrentSourceTotal_negateBatteries (c : MNACircuit) (node : ℕ) :
    getCurrentSourceTotal (negateBatteries c) node =
      getCurrentSourceTotal c node := rfl

theorem kclEquations_negateBatteries (c : MNACircuit) :
    kclEquations (negateBatteries c) = kclEquations c := by
  unfold kclEquations
  rw [nodes_negateBatteries]
  apply List.map_congr_left
  intro node _
  rw [getCurrentSourceTotal_negateBatteries, kclTerms_negateBatteries]

theorem batteryEquations_negateBatteries (c : MNACircuit) :
    batteryEquations (negateBatteries c) =
      c.batteries.map (fun b =>
        ⟨-b.value, [⟨-1, Unknown.voltage b.nodeId0⟩,
          ⟨1, Unknown.voltage b.nodeId1⟩]⟩) := by
  unfold batteryEquations
  show (c.batteries.map negValue).map _ = _
  rw [List.map_map]
  rfl

theorem zeroResistorEquations_negateBatteries (c : MNACircuit) :
    zeroResistorEquations (negateBatteries c) = zeroResistorEquations c := rfl

theorem getEquations_negateBatteries (c : MNACircuit) :
    getEquations (negateBatteries c) =
      referenceEquations c ++ kclEquations c ++
        c.batteries.map (fun b =>
          ⟨-b.value, [⟨-1, Unknown.voltage b.nodeId0⟩,
            ⟨1, Unknown.voltage b.nodeId1⟩]⟩) ++
        zeroResistorEquations c := by
  unfold getEquations
  rw [referenceEquations_negateBatteries, kclEquations_negateBatteries,
    batteryEquations_negateBatteries, zeroResistorEquations_negateBatteries]

theorem referenceEquations_value_zero (c : MNACircuit) :
    ∀ eq ∈ referenceEquations c, eq.value = 0 := by
  intro eq heq
  simp only [referenceEquations, List.mem_map] at heq
  obtain ⟨r, _, rfl⟩ := heq
  rfl

theorem zeroResistorEquations_value_zero (c : MNACircuit) :
    ∀ eq ∈ zeroResistorEquations c, eq.value = 0 := by
  intro eq heq
  simp only [zeroResistorEquations, List.mem_map] at heq
  obtain ⟨r, _, rfl⟩ := heq
  rfl

theorem kclEquations_value_zero {c : MNACircuit}
    (hcs : c.currentSources = []) :
    ∀ eq ∈ kclEquations c, eq.value = 0 := by
  intro eq heq
  simp only [kclEquations, List.mem_map] at heq
  obtain ⟨node, _, rfl⟩ := heq
  simp [getCurrentSourceTotal, hcs]

end MNACircuit

theorem evalTerms_neg (f : Unknown → ℚ) (ts : List Term) :
    evalTerms (fun u => -f u) ts = -evalTerms f ts := by
  induction ts with
  | nil => simp [evalTerms]
  | cons t rest ih =>
    simp only [evalTerms, List.map_cons, List.sum_cons] at ih ⊢
    rw [ih]
    ring

/-- C8 (amended): in a circuit whose only source is a single battery (no
other batteries and no current sources), negating that battery's voltage
maps each solution of the linear system to the negated assignment: every
unknown current reverses sign, every Ohm's-law resistor current reverses
sign, and all magnitudes are unchanged. -/
theorem C8_single_battery_negation (c : MNACircuit) (b : MNAElement)
    (hb : c.batteries = [b]) (hcs : c.currentSources = [])
    (x : Unknown → ℚ) (hx : satisfiesAll (MNACircuit.getEquations c) x) :
    satisfiesAll (MNACircuit.getEquations (negateBatteries c))
        (fun u => -x u) ∧
    (∀ r ∈ c.resistors, r.value ≠ 0 →
      ohmCurrent (fun u => -x u) r = -ohmCurrent x r) ∧
    (∀ u : Unknown, |(-x u : ℚ)| = |x u|) := by
  refine ⟨?_, ?_, fun u => abs_neg (x u)⟩
  · intro eq heq
    rw [MNACircuit.getEquations_negateBatteries] at heq
    rcases List.mem_append.mp heq with heq | heq
    · rcases List.mem_append.mp heq with heq | heq
      · rcases List.mem_append.mp heq with heq | heq
        · have h0 := MNACircuit.referenceEquations_value_zero c eq heq
          have hmem : eq ∈ MNACircuit.getEquations c :=
            List.mem_append_left _ (List.mem_append_left _
              (List.mem_append_left _ heq))
          rw [evalTerms_neg, hx eq hmem, h0, neg_zero]
        · have h0 := MNACircuit.kclEquations_value_zero hcs eq heq
          have hmem : eq ∈ MNACircuit.getEquations c :=
            List.mem_append_left _ (List.mem_append_left _
              (List.mem_append_right _ heq))
          rw [evalTerms_neg, hx eq hmem, h0, neg_zero]
      · rw [hb] at heq
        simp only [List.map_cons, List.map_nil, List.mem_singleton] at heq
        subst heq
        have hmem : (⟨b.value, [⟨-1, Unknown.voltage b.nodeId0⟩,
            ⟨1, Unknown.voltage b.nodeId1⟩]⟩ : Equation) ∈
            MNACircuit.getEquations c := by
          refine List.mem_append_left _ (List.mem_append_right _ ?_)
          unfold MNACircuit.batteryEquations
          rw [hb]
          simp
        have := hx _ hmem
        rw [evalTerms_neg]
        simp only at this ⊢
        rw [this]
    · have h0 := MNACircuit.zeroResistorEquations_value_zero c eq heq
      have hmem : eq ∈ MNACircuit.getEquations c :=
        List.mem_append_right _ heq
      rw [evalTerms_neg, hx eq hmem, h0, neg_zero]
  · intro r _ _
    unfold ohmCurrent
    ring

/-- Section-wise reading of satisfaction of the whole equation system:
reference voltages are zero, each node's KCL terms sum to its net source
current, each battery imposes its voltage drop, and each zero-resistance
resistor equalizes its terminal voltages. -/
theorem satisfiesAll_getEquations_iff (c : MNACircuit) (f : Unknown → ℚ) :
    satisfiesAll (MNACircuit.getEquations c) f ↔
      ((∀ r ∈ MNACircuit.getReferenceNodeIds c, f (Unknown.voltage r) = 0) ∧
       (∀ node ∈ MNACircuit.nodes c,
         evalTerms f (MNACircuit.kclTerms c node) =
           MNACircuit.getCurrentSourceTotal c node) ∧
       (∀ b ∈ c.batteries,
         -f (Unknown.voltage b.nodeId0) + f (Unknown.voltage b.nodeId1) =
           b.value) ∧
       (∀ r ∈ c.resistors, r.value = 0 →
         f (Unknown.voltage r.nodeId0) - f (Unknown.voltage r.nodeId1) = 0)) := by
  constructor
  · intro h
    refine ⟨?_, ?_, ?_, ?_⟩
    · intro r hr
      have hm : (⟨0, [⟨1, Unknown.voltage r⟩]⟩ : Equation) ∈
          MNACircuit.getEquations c := by
        refine List.mem_append_left _ (List.mem_append_left _
          (List.mem_append_left _ ?_))
        exact List.mem_map_of_mem _ hr
      have := h _ hm
      simpa [evalTerms] using this
    · intro node hnode
      have hm : (⟨MNACircuit.getCurrentSourceTotal c node,
          MNACircuit.kclTerms c node⟩ : Equation) ∈
          MNACircuit.getEquations c := by
        refine List.mem_append_left _ (List.mem_append_left _
          (List.mem_append_right _ ?_))
        exact List.mem_map_of_mem _ hnode
      exact h _ hm
    · intro b hb
      have hm : (⟨b.value, [⟨-1, Unknown.voltage b.nodeId0⟩,
          ⟨1, Unknown.voltage b.nodeId1⟩]⟩ : Equation) ∈
          MNACircuit.getEquations c := by
        refine List.mem_append_left _ (List.mem_append_right _ ?_)
        exact List.mem_map_of_mem _ hb
      have := h _ hm
      simp only [evalTerms, List.map_cons, List.map_nil, List.sum_cons,
        List.sum_nil, add_zero, neg_one_mul, one_mul] at this
      exact this
    · intro r hr hv
      have hrf : r ∈ c.resistors.filter (fun s => s.value = 0) := by
        simp only [List.mem_filter, decide_eq_true_eq]
        exact ⟨hr, hv⟩
      have hm : (⟨0, [⟨1, Unknown.voltage r.nodeId0⟩,
          ⟨-1, Unknown.voltage r.nodeId1⟩]⟩ : Equation) ∈
          MNACircuit.getEquations c :=
        List.mem_append_right _ (List.mem_map_of_mem _ hrf)
      have := h _ hm
      simp only [evalTerms, List.map_cons, List.map_nil, List.sum_cons,
        List.sum_nil, add_zero, neg_one_mul, one_mul] at this
      linarith
  · rintro ⟨h1, h2, h3, h4⟩ eq heq
    rcases List.mem_append.mp heq with heq | heq
    · rcases List.mem_append.mp heq with heq | heq
      · rcases List.mem_append.mp heq with heq | heq
        · obtain ⟨r, hr, rfl⟩ := List.mem_map.mp heq
          simpa [evalTerms] using h1 r hr
        · obtain ⟨node, hnode, rfl⟩ := List.mem_map.mp heq
          exact h2 node hnode
      · obtain ⟨b, hb, rfl⟩ := List.mem_map.mp heq
        have := h3 b hb
        simp only [evalTerms, List.map_cons, List.map_nil, List.sum_cons,
          List.sum_nil, add_zero, neg_one_mul, one_mul]
        exact this
    · obtain ⟨r, hrf, rfl⟩ := List.mem_map.mp heq
      simp only [List.mem_filter, decide_eq_true_eq] at hrf
      have := h4 r hrf.1 hrf.2
      simp only [evalTerms, List.map_cons, List.map_nil, List.sum_cons,
        List.sum_nil, add_zero, neg_one_mul, one_mul]
      linarith

/-- The two-battery loop: batteries 0→1 and 1→2 of 4 V each and a resistor
2→0 of 2 Ω. -/
def C8loop : MNACircuit :=
  ⟨[⟨0, 0, 1, 4, none⟩, ⟨1, 1, 2, 4, none⟩], [⟨2, 2, 0, 2, none⟩], []⟩

/-- The same loop after negating only the first battery's voltage. -/
def C8loopNegated : MNACircuit :=
  ⟨[⟨0, 0, 1, -4, none⟩, ⟨1, 1, 2, 4, none⟩], [⟨2, 2, 0, 2, none⟩], []⟩

/-- A solution of the two-battery loop (reference voltage at node 1): 4 A
circulates. -/
def C8originalAssignment : Unknown → ℚ := fun u =>
  match u with
  | Unknown.current 0 => 4
  | Unknown.current 1 => 4
  | Unknown.voltage 0 => -4
  | Unknown.voltage 2 => 4
  | _ => 0

/-- Counterexample to C8 as stated: the first battery of `C8loop` lies in a
loop, yet negating its voltage (all other inputs unchanged) does not negate
the loop currents: the loop resistor carries 4 A before, while every
solution of the negated system carries 0 A through it, and 0 ≠ -4. -/
theorem C8_counterexample_second_source :
    satisfiesAll (MNACircuit.getEquations C8loop) C8originalAssignment ∧
    (∀ y : Unknown → ℚ,
      satisfiesAll (MNACircuit.getEquations C8loopNegated) y →
        ohmCurrent y ⟨2, 2, 0, 2, none⟩ = 0) ∧
    ohmCurrent C8originalAssignment ⟨2, 2, 0, 2, none⟩ = 4 ∧
    (0 : ℚ) ≠ -4 := by
  refine ⟨?_, ?_, ?_, by norm_num⟩
  · rw [satisfiesAll_getEquations_iff]
    refine ⟨?_, ?_, ?_, ?_⟩
    · rw [show MNACircuit.getReferenceNodeIds C8loop = [1] from by decide]
      intro r hr
      simp only [List.mem_singleton] at hr
      subst hr
      norm_num [C8originalAssignment]
    · rw [show MNACircuit.nodes C8loop = [1, 2, 0] from by decide]
      intro node hnode
      simp only [List.mem_cons, List.not_mem_nil, or_false] at hnode
      rcases hnode with rfl | rfl | rfl <;>
        norm_num [evalTerms, MNACircuit.kclTerms, MNACircuit.getCurrentTerms,
          MNACircuit.batteryContribution, MNACircuit.resistorContribution,
          MNAElement.onSide, MNACircuit.getCurrentSourceTotal, C8loop,
          List.foldl_cons, List.foldl_nil, C8originalAssignment]
    · intro b hb
      simp only [C8loop, List.mem_cons, List.not_mem_nil, or_false] at hb
      rcases hb with rfl | rfl <;> norm_num [C8originalAssignment]
    · intro r hr
      simp only [C8loop, List.mem_cons, List.not_mem_nil, or_false] at hr
      subst hr
      norm_num
  · intro y hy
    rw [satisfiesAll_getEquations_iff] at hy
    obtain ⟨h1, _, h3, _⟩ := hy
    have hv1 : y (Unknown.voltage 1) = 0 := h1 1 (by decide)
    have hb1 : -y (Unknown.voltage 0) + y (Unknown.voltage 1) = -4 :=
      h3 ⟨0, 0, 1, -4, none⟩ (List.mem_cons_self _ _)
    have hb2 : -y (Unknown.voltage 1) + y (Unknown.voltage 2) = 4 :=
      h3 ⟨1, 1, 2, 4, none⟩
        (List.mem_cons_of_mem _ (List.mem_cons_self _ _))
    have h20 : y (Unknown.voltage 2) = y (Unknown.voltage 0) := by linarith
    unfold ohmCurrent
    simp only
    rw [h20]
    simp
  · norm_num [ohmCurrent, C8originalAssignment]

/-- The single-battery loop for the witness: battery 0→1 of 4 V, resistor
1→0 of 4 Ω. -/
def C8singleLoop : MNACircuit :=
  ⟨[⟨0, 0, 1, 4, none⟩], [⟨1, 1, 0, 4, none⟩], []⟩

/-- Its solution with the reference at node 1: node 0 at -4 V, 1 A
circulating. -/
def C8singleAssignment : Unknown → ℚ := fun u =>
  match u with
  | Unknown.current 0 => 1
  | Unknown.voltage 0 => -4
  | _ => 0

/-- Witness for the amended C8 at the single-battery loop with its
solution. -/
theorem C8_single_battery_negation_witness :
    (C8singleLoop.batteries = [⟨0, 0, 1, 4, none⟩] ∧
      C8singleLoop.currentSources = [] ∧
      satisfiesAll (MNACircuit.getEquations C8singleLoop)
        C8singleAssignment) ∧
    (satisfiesAll (MNACircuit.getEquations (negateBatteries C8singleLoop))
        (fun u => -C8singleAssignment u) ∧
      (∀ r ∈ C8singleLoop.resistors, r.value ≠ 0 →
        ohmCurrent (fun u => -C8singleAssignment u) r =
          -ohmCurrent C8singleAssignment r) ∧
      (∀ u : Unknown, |(-C8singleAssignment u : ℚ)| =
        |C8singleAssignment u|)) := by
  have hsat : satisfiesAll (MNACircuit.getEquations C8singleLoop)
      C8singleAssignment := by
    rw [satisfiesAll_getEquations_iff]
    refine ⟨?_, ?_, ?_, ?_⟩
    · rw [show MNACircuit.getReferenceNodeIds C8singleLoop = [1] from by decide]
      intro r hr
      simp only [List.mem_singleton] at hr
      subst hr
      norm_num [C8singleAssignment]
    · rw [show MNACircuit.nodes C8singleLoop = [1, 0] from by decide]
      intro node hnode
      simp only [List.mem_cons, List.not_mem_nil, or_false] at hnode
      rcases hnode with rfl | rfl <;>
        norm_num [evalTerms, MNACircuit.kclTerms, MNACircuit.getCurrentTerms,
          MNACircuit.batteryContribution, MNACircuit.resistorContribution,
          MNAElement.onSide, MNACircuit.getCurrentSourceTotal, C8singleLoop,
          List.foldl_cons, List.foldl_nil, C8singleAssignment]
    · intro b hb
      simp only [C8singleLoop, List.mem_cons, List.not_mem_nil, or_false] at hb
      subst hb
      norm_num [C8singleAssignment]
    · intro r hr
      simp only [C8singleLoop, List.mem_cons, List.not_mem_nil, or_false] at hr
      subst hr
      norm_num
  exact ⟨⟨rfl, rfl, hsat⟩,
    C8_single_battery_negation C8singleLoop ⟨0, 0, 1, 4, none⟩ rfl rfl
      C8singleAssignment hsat⟩

/-! ## Claim C9: determinism and the frame of `solve` -/

namespace MNACircuit

theorem current_unknown_not_mem_of_nonzero {c : MNACircuit}
    (h : idsNodup c) {r : MNAElement} (hr : r ∈ c.resistors)
    (hv : r.value ≠ 0) :
    Unknown.current r.elementId ∉ getUnknownCurrents c := by
  intro hmem
  unfold getUnknownCurrents at hmem
  rcases List.mem_append.mp hmem with hmem | hmem
  · obtain ⟨b, hb, heq⟩ := List.mem_map.mp hmem
    exact battery_resistor_ids_disjoint h hb hr (by simpa using heq)
  · obtain ⟨s, hs, heq⟩ := List.mem_map.mp hmem
    simp only [List.mem_filter, decide_eq_true_eq] at hs
    have hsr : s = r := resistor_id_inj h hs.1 hr (by simpa using heq)
    exact hv (hsr ▸ hs.2)

/-- The assignment of the unknowns read back from the linear solve (or from
the all-zero fallback when `lin` fails): the value `solve` writes into the
`currentSolution` field of each unknown-current element and into the
voltage map. -/
def solvedAssignment (c : MNACircuit)
    (lin : List Equation → List Unknown → Option (List ℚ)) : Unknown → ℚ :=
  assignOf (unknownsList c)
    ((lin (getEquations c) (unknownsList c)).getD
      (List.replicate c.getNumVars 0))

end MNACircuit

/-- C9 (amended): `solve` is deterministic (equal inputs yield equal
Solutions) and leaves the identity, terminal nodes and value of every input
element unchanged, as well as the whole current-source list and every
nonzero resistor; but it is not free of effects on its inputs: it writes
the solved current (the solution vector's entry for the element's unknown
current) into the `currentSolution` field of every battery and of every
zero-resistance resistor. -/
theorem C9_solve_determinism_and_frame (c : MNACircuit)
    (lin : List Equation → List Unknown → Option (List ℚ))
    (h : idsNodup c) :
    (∀ c2 : MNACircuit, c2 = c →
      MNACircuit.solveWith c2 lin = MNACircuit.solveWith c lin) ∧
    (MNACircuit.solveWith c lin).2.currentSources = c.currentSources ∧
    ((MNACircuit.solveWith c lin).2.batteries.map
        (fun e => (e.elementId, e.nodeId0, e.nodeId1, e.value)) =
      c.batteries.map
        (fun e => (e.elementId, e.nodeId0, e.nodeId1, e.value))) ∧
    ((MNACircuit.solveWith c lin).2.resistors.map
        (fun e => (e.elementId, e.nodeId0, e.nodeId1, e.value)) =
      c.resistors.map
        (fun e => (e.elementId, e.nodeId0, e.nodeId1, e.value))) ∧
    (∀ i : ℕ, ∀ b : MNAElement, c.batteries.get? i = some b →
      (MNACircuit.solveWith c lin).2.batteries.get? i =
        some { b with currentSolution := some (MNACircuit.solvedAssignment
          c lin (Unknown.current b.elementId)) }) ∧
    (∀ i : ℕ, ∀ r : MNAElement, c.resistors.get? i = some r → r.value = 0 →
      (MNACircuit.solveWith c lin).2.resistors.get? i =
        some { r with currentSolution := some (MNACircuit.solvedAssignment
          c lin (Unknown.current r.elementId)) }) ∧
    (∀ i : ℕ, ∀ r : MNAElement, c.resistors.get? i = some r → r.value ≠ 0 →
      (MNACircuit.solveWith c lin).2.resistors.get? i = some r) := by
  refine ⟨fun c2 hc2 => by rw [hc2], rfl, ?_, ?_, ?_, ?_, ?_⟩
  · show (c.batteries.map _).map _ = _
    rw [List.map_map]
    apply List.map_congr_left
    intro b _
    simp only [Function.comp]
    split <;> rfl
  · show (c.resistors.map _).map _ = _
    rw [List.map_map]
    apply List.map_congr_left
    intro r _
    simp only [Function.comp]
    split <;> rfl
  · intro i b hi
    have hb : b ∈ c.batteries := List.get?_mem hi
    show (c.batteries.map _).get? i = _
    rw [List.get?_map, hi]
    simp only [Option.map_some',
      mem_getUnknownCurrents_of_battery hb, if_true]
    rfl
  · intro i r hi hv
    have hr : r ∈ c.resistors := List.get?_mem hi
    show (c.resistors.map _).get? i = _
    rw [List.get?_map, hi]
    simp only [Option.map_some',
      mem_getUnknownCurrents_of_zeroResistor hr hv, if_true]
    rfl
  · intro i r hi hv
    show (c.resistors.map _).get? i = some r
    have hr : r ∈ c.resistors := List.get?_mem hi
    rw [List.get?_map, hi]
    simp only [Option.map_some',
      if_neg (MNACircuit.current_unknown_not_mem_of_nonzero h hr hv)]

/-- The circuit of the C9 counterexample and witness: battery 0→1 of 4 V,
resistor 1→0 of 4 Ω. -/
def C9circuit : MNACircuit :=
  ⟨[⟨0, 0, 1, 4, none⟩], [⟨1, 1, 0, 4, none⟩], []⟩

/-- The solver used for the C9 counterexample: it returns the actual
solution vector of the system of `C9circuit` over the ordered unknown list
`[current 0, voltage 1, voltage 0]` (reference at node 1). -/
def C9solver : List Equation → List Unknown → Option (List ℚ) :=
  fun _ _ => some [1, 0, -4]

/-- Counterexample to C9 as stated: on `C9circuit`, with a solver that
returns a genuine solution of the stamped system, `solve` does not leave
every field of every input element unchanged — it writes the solved current
into the battery's `currentSolution` field, which was `none` on entry and
`some 1` after the call. -/
theorem C9_counterexample_input_mutation :
    satisfiesAll (MNACircuit.getEquations C9circuit)
      (assignOf (MNACircuit.unknownsList C9circuit) [1, 0, -4]) ∧
    C9circuit.batteries = [⟨0, 0, 1, 4, none⟩] ∧
    (MNACircuit.solveWith C9circuit C9solver).2.batteries =
      [⟨0, 0, 1, 4, some 1⟩] ∧
    (MNACircuit.solveWith C9circuit C9solver).2.batteries ≠
      C9circuit.batteries := by
  have h0 : assignOf (MNACircuit.unknownsList C9circuit) [1, 0, -4]
      (Unknown.voltage 0) = -4 := by decide
  have h1 : assignOf (MNACircuit.unknownsList C9circuit) [1, 0, -4]
      (Unknown.voltage 1) = 0 := by decide
  have hc : assignOf (MNACircuit.unknownsList C9circuit) [1, 0, -4]
      (Unknown.current 0) = 1 := by decide
  refine ⟨?_, rfl, by decide, by decide⟩
  simp only [C9circuit] at h0 h1 hc
  rw [satisfiesAll_getEquations_iff]
  refine ⟨?_, ?_, ?_, ?_⟩
  · rw [show MNACircuit.getReferenceNodeIds C9circuit = [1] from by decide]
    intro r hr
    simp only [List.mem_singleton] at hr
    subst hr
    exact h1
  · rw [show MNACircuit.nodes C9circuit = [1, 0] from by decide]
    intro node hnode
    simp only [List.mem_cons, List.not_mem_nil, or_false] at hnode
    rcases hnode with rfl | rfl <;>
      norm_num [evalTerms, MNACircuit.kclTerms, MNACircuit.getCurrentTerms,
        MNACircuit.batteryContribution, MNACircuit.resistorContribution,
        MNAElement.onSide, MNACircuit.getCurrentSourceTotal, C9circuit,
        List.foldl_cons, List.foldl_nil, h0, h1, hc]
  · intro b hb
    simp only [C9circuit, List.mem_cons, List.not_mem_nil, or_false] at hb
    subst hb
    norm_num [C9circuit, h0, h1]
  · intro r hr
    simp only [C9circuit, List.mem_cons, List.not_mem_nil, or_false] at hr
    subst hr
    norm_num

/-- Witness for the amended C9 at `C9circuit` with the genuine solver. -/
theorem C9_solve_determinism_and_frame_witness :
    (idsNodup C9circuit) ∧
    ((∀ c2 : MNACircuit, c2 = C9circuit →
      MNACircuit.solveWith c2 C9solver =
        MNACircuit.solveWith C9circuit C9solver) ∧
    (MNACircuit.solveWith C9circuit C9solver).2.currentSources =
      C9circuit.currentSources ∧
    ((MNACircuit.solveWith C9circuit C9solver).2.batteries.map
        (fun e => (e.elementId, e.nodeId0, e.nodeId1, e.value)) =
      C9circuit.batteries.map
        (fun e => (e.elementId, e.nodeId0, e.nodeId1, e.value))) ∧
    ((MNACircuit.solveWith C9circuit C9solver).2.resistors.map
        (fun e => (e.elementId, e.nodeId0, e.nodeId1, e.value)) =
      C9circuit.resistors.map
        (fun e => (e.elementId, e.nodeId0, e.nodeId1, e.value))) ∧
    (∀ i : ℕ, ∀ b : MNAElement, C9circuit.batteries.get? i = some b →
      (MNACircuit.solveWith C9circuit C9solver).2.batteries.get? i =
        some { b with currentSolution := some (MNACircuit.solvedAssignment
          C9circuit C9solver (Unknown.current b.elementId)) }) ∧
    (∀ i : ℕ, ∀ r : MNAElement,
      C9circuit.resistors.get? i = some r → r.value = 0 →
      (MNACircuit.solveWith C9circuit C9solver).2.resistors.get? i =
        some { r with currentSolution := some (MNACircuit.solvedAssignment
          C9circuit C9solver (Unknown.current r.elementId)) }) ∧
    (∀ i : ℕ, ∀ r : MNAElement,
      C9circuit.resistors.get? i = some r → r.value ≠ 0 →
      (MNACircuit.solveWith C9circuit C9solver).2.resistors.get? i =
        some r)) :=
  ⟨by decide, C9_solve_determinism_and_frame C9circuit C9solver (by decide)⟩

/-! ## The adaptive integrator: termination and sub-step bounds -/

/-- `search` always succeeds once the fuel covers the halvings needed to
bring `dt` below `MIN_DT`, and the accepted sub-step is at least `MIN_DT`
and no larger than the attempted `dt` unless it is the `MIN_DT` floor
itself. -/
theorem search_spec {T : Type} (s : Steppable T) {minDT : ℚ}
    (hmin : 0 < minDT) :
    ∀ (fuel : ℕ) (state : T) (dt : ℚ) (half : Option T),
      dt ≤ 2 ^ fuel * minDT →
      ∃ dt' st', search s minDT fuel state dt half = some (dt', st') ∧
        minDT ≤ dt' ∧ (dt' ≤ dt ∨ dt' = minDT) := by
  intro fuel
  induction fuel with
  | zero =>
    intro state dt half hdt
    rw [search]
    rw [pow_zero, one_mul] at hdt
    rw [if_pos hdt]
    exact ⟨minDT, s.update state minDT, rfl, le_refl _, Or.inr rfl⟩
  | succ fuel ih =>
    intro state dt half hdt
    rw [search]
    by_cases hfloor : dt ≤ minDT
    · rw [if_pos hfloor]
      exact ⟨minDT, s.update state minDT, rfl, le_refl _, Or.inr rfl⟩
    · rw [if_neg hfloor]
      push_neg at hfloor
      by_cases herr : s.distance (s.update state dt)
          (s.update (half.getD (s.update state (dt / 2))) (dt / 2)) <
            errorThreshold
      · simp only [herr, if_true]
        exact ⟨dt, _, rfl, le_of_lt hfloor, Or.inl (le_refl _)⟩
      · simp only [herr, if_false]
        have hdt2 : dt / 2 ≤ 2 ^ fuel * minDT := by
          rw [pow_succ] at hdt
          linarith
        obtain ⟨dt', st', heq, hge, hcase⟩ :=
          ih state (dt / 2) (some (half.getD (s.update state (dt / 2)))) hdt2
        refine ⟨dt', st', heq, hge, ?_⟩
        rcases hcase with hcase | hcase
        · exact Or.inl (by linarith)
        · exact Or.inr hcase

/-- With a steppable whose error never falls below the threshold, `search`
always bottoms out at the `MIN_DT` floor. -/
theorem search_highError {T : Type} (s : Steppable T) {minDT : ℚ}
    (hhigh : ∀ a b, ¬ s.distance a b < errorThreshold) :
    ∀ (fuel : ℕ) (state : T) (dt : ℚ) (half : Option T),
      dt ≤ 2 ^ fuel * minDT →
      search s minDT fuel state dt half =
        some (minDT, s.update state minDT) := by
  intro fuel
  induction fuel with
  | zero =>
    intro state dt half hdt
    rw [search]
    rw [pow_zero, one_mul] at hdt
    rw [if_pos hdt]
  | succ fuel ih =>
    intro state dt half hdt
    rw [search]
    by_cases hfloor : dt ≤ minDT
    · rw [if_pos hfloor]
    · rw [if_neg hfloor]
      simp only [hhigh _ _, if_false]
      apply ih
      rw [pow_succ] at hdt
      push_neg at hfloor
      linarith

/-- The loop invariant of `stepInTimeWithHistory`: with enough fuel the
loop terminates with a recorded history whose sub-steps are all at least
`MIN_DT`, whose durations sum to at least the requested total, overshooting
by strictly less than `MIN_DT`, and whose length is at most the fuel. -/
theorem stepLoop_spec {T : Type} (s : Steppable T) {minDT totalTime : ℚ}
    (hmin : 0 < minDT) (sf : ℕ) (hsf : totalTime ≤ 2 ^ sf * minDT) :
    ∀ (fuel : ℕ) (state : T) (elapsed attempted : ℚ) (acc : List (ℚ × T)),
      elapsed < totalTime + minDT →
      attempted ≤ totalTime - elapsed →
      totalTime - elapsed ≤ (fuel : ℚ) * minDT →
      0 ≤ elapsed →
      ∃ tail,
        stepLoop s minDT totalTime sf fuel state elapsed attempted acc =
          some (acc ++ tail) ∧
        (∀ p ∈ tail, minDT ≤ p.1) ∧
        totalTime ≤ elapsed + sumDts tail ∧
        elapsed + sumDts tail < totalTime + minDT ∧
        tail.length ≤ fuel := by
  intro fuel
  induction fuel with
  | zero =>
    intro state elapsed attempted acc hover _ hfuel _
    rw [stepLoop]
    have hnot : ¬ elapsed < totalTime := by
      push_cast at hfuel
      intro hlt
      linarith
    rw [if_neg hnot]
    refine ⟨[], by rw [List.append_nil], by simp, ?_, ?_, by simp⟩
    · simp only [sumDts, List.map_nil, List.sum_nil, add_zero]
      linarith [not_lt.mp hnot]
    · simp only [sumDts, List.map_nil, List.sum_nil, add_zero]
      exact hover
  | succ fuel ih =>
    intro state elapsed attempted acc hover hatt hfuel hpos
    rw [stepLoop]
    by_cases hel : elapsed < totalTime
    · rw [if_pos hel]
      have hattsf : attempted ≤ 2 ^ sf * minDT := by linarith
      obtain ⟨dt', st', heq, hge, hcase⟩ :=
        search_spec s hmin sf state attempted none hattsf
      simp only [heq]
      have hdtpos : 0 < dt' := lt_of_lt_of_le hmin hge
      have hover' : elapsed + dt' < totalTime + minDT := by
        rcases hcase with hcase | hcase
        · linarith
        · linarith
      have hatt' : (if dt' * 2 > totalTime - (elapsed + dt')
            then totalTime - (elapsed + dt') else dt' * 2) ≤
          totalTime - (elapsed + dt') := by
        split
        · exact le_refl _
        · linarith [not_lt.mp (by assumption :
            ¬ dt' * 2 > totalTime - (elapsed + dt'))]
      have hfuel' : totalTime - (elapsed + dt') ≤ (fuel : ℚ) * minDT := by
        push_cast at hfuel ⊢
        linarith
      obtain ⟨tail, heq2, htail, hsum1, hsum2, hlen⟩ :=
        ih st' (elapsed + dt') _ (acc ++ [(dt', st')]) hover' hatt' hfuel'
          (by linarith)
      refine ⟨(dt', st') :: tail, ?_, ?_, ?_, ?_, ?_⟩
      · rw [heq2, List.append_assoc]
        rfl
      · intro p hp
        rcases List.mem_cons.mp hp with rfl | hp
        · exact hge
        · exact htail p hp
      · simp only [sumDts, List.map_cons, List.sum_cons] at hsum1 ⊢
        linarith
      · simp only [sumDts, List.map_cons, List.sum_cons] at hsum2 ⊢
        linarith
      · simp only [List.length_cons]
        omega
    · rw [if_neg hel]
      refine ⟨[], by rw [List.append_nil], by simp, ?_, ?_, by simp⟩
      · simp only [sumDts, List.map_nil, List.sum_nil, add_zero]
        linarith [not_lt.mp hel]
      · simp only [sumDts, List.map_nil, List.sum_nil, add_zero]
        exact hover

/-! ## Claim C10: sub-step durations of `stepInTimeWithHistory` -/

/-- C10: with positive `MIN_DT` and requested total time (and fuel
sufficient for the embedded recursions, which the hypotheses exhibit
concretely), `stepInTimeWithHistory` records only sub-steps of duration at
least `MIN_DT`, their durations sum to at least `totalTime`, and the sum
overshoots `totalTime` by strictly less than `MIN_DT` (the `MIN_DT` floor
branch always steps by exactly `MIN_DT`, even when less time remains). -/
theorem C10_substep_durations {T : Type} (s : Steppable T)
    (minDT totalTime : ℚ) (sf n : ℕ) (state : T) (hmin : 0 < minDT)
    (htot : 0 < totalTime) (hsf : totalTime ≤ 2 ^ sf * minDT)
    (hn : totalTime ≤ (n : ℚ) * minDT) :
    ∃ res, stepInTimeWithHistory s minDT sf n state totalTime = some res ∧
      (∀ p ∈ res, minDT ≤ p.1) ∧
      totalTime ≤ sumDts res ∧
      sumDts res < totalTime + minDT := by
  obtain ⟨tail, heq, h1, h2, h3, _⟩ :=
    stepLoop_spec s hmin sf hsf n state 0 totalTime [] (by linarith)
      (by simp) (by simpa using hn) (le_refl 0)
  exact ⟨tail, by simpa [stepInTimeWithHistory] using heq, h1,
    by simpa using h2, by simpa using h3⟩

/-- Witness for C10: a steppable with zero error on a two-unit interval
with `MIN_DT = 1`. -/
theorem C10_substep_durations_witness :
    ((0 : ℚ) < 1 ∧ (0 : ℚ) < 2 ∧ (2 : ℚ) ≤ 2 ^ 1 * 1 ∧
      (2 : ℚ) ≤ ((2 : ℕ) : ℚ) * 1) ∧
    (∃ res, stepInTimeWithHistory
        (⟨fun _ _ => (), fun _ _ => 0⟩ : Steppable Unit) 1 1 2 () 2 =
          some res ∧
      (∀ p ∈ res, (1 : ℚ) ≤ p.1) ∧
      (2 : ℚ) ≤ sumDts res ∧
      sumDts res < 2 + 1) :=
  ⟨⟨by norm_num, by norm_num, by norm_num, by push_cast; norm_num⟩,
    C10_substep_durations _ 1 2 1 2 () (by norm_num) (by norm_num)
      (by norm_num) (by push_cast; norm_num)⟩

/-! ## Claim C2: termination of the adaptive integrator -/

/-- C2 (amended): the integrator terminates — `search` always bottoms out
at the `MIN_DT` floor within `log2(dt/MIN_DT)` halvings (the fuel `sf` with
`dt ≤ 2^sf · MIN_DT` suffices), and the number of accepted sub-steps per
outer step is bounded by `⌈totalTime/MIN_DT⌉` (any `n` with
`totalTime ≤ n · MIN_DT`) — a linear bound, not a logarithmic one. -/
theorem C2_termination_and_linear_substep_bound {T : Type} (s : Steppable T)
    (minDT totalTime : ℚ) (sf n : ℕ) (state : T) (hmin : 0 < minDT)
    (htot : 0 < totalTime) (hsf : totalTime ≤ 2 ^ sf * minDT)
    (hn : totalTime ≤ (n : ℚ) * minDT) :
    (∀ (st : T) (dt : ℚ) (half : Option T), dt ≤ 2 ^ sf * minDT →
      ∃ dt' st', search s minDT sf st dt half = some (dt', st') ∧
        minDT ≤ dt') ∧
    (∃ res, stepInTimeWithHistory s minDT sf n state totalTime = some res ∧
      res.length ≤ n) := by
  constructor
  · intro st dt half hdt
    obtain ⟨dt', st', heq, hge, _⟩ := search_spec s hmin sf st dt half hdt
    exact ⟨dt', st', heq, hge⟩
  · obtain ⟨tail, heq, _, _, _, hlen⟩ :=
      stepLoop_spec s hmin sf hsf n state 0 totalTime [] (by linarith)
        (by simp) (by simpa using hn) (le_refl 0)
    exact ⟨tail, by simpa [stepInTimeWithHistory] using heq, hlen⟩

/-- Witness for the amended C2 on the same two-unit configuration. -/
theorem C2_termination_and_linear_substep_bound_witness :
    ((0 : ℚ) < 1 ∧ (0 : ℚ) < 2 ∧ (2 : ℚ) ≤ 2 ^ 1 * 1 ∧
      (2 : ℚ) ≤ ((2 : ℕ) : ℚ) * 1) ∧
    ((∀ (st : Unit) (dt : ℚ) (half : Option Unit), dt ≤ 2 ^ 1 * 1 →
      ∃ dt' st', search (⟨fun _ _ => (), fun _ _ => 0⟩ : Steppable Unit)
          1 1 st dt half = some (dt', st') ∧ (1 : ℚ) ≤ dt') ∧
    (∃ res, stepInTimeWithHistory
        (⟨fun _ _ => (), fun _ _ => 0⟩ : Steppable Unit) 1 1 2 () 2 =
          some res ∧ res.length ≤ 2)) :=
  ⟨⟨by norm_num, by norm_num, by norm_num, by push_cast; norm_num⟩,
    C2_termination_and_linear_substep_bound _ 1 2 1 2 () (by norm_num)
      (by norm_num) (by norm_num) (by push_cast; norm_num)⟩

/-- A steppable whose states always disagree by a full unit, far above the
error threshold: every `search` subdivides down to the `MIN_DT` floor. -/
def highErrorSteppable : Steppable Unit :=
  ⟨fun _ _ => (), fun _ _ => 1⟩

/-- With an always-high-error steppable, every accepted sub-step is exactly
`MIN_DT`, so the number of accepted sub-steps of an outer step spanning
`k · MIN_DT` is exactly `k` — linear in `totalTime / MIN_DT`. -/
theorem stepLoop_exit {T : Type} (s : Steppable T)
    (minDT totalTime : ℚ) (sf fuel : ℕ) (state : T)
    (elapsed attempted : ℚ) (states : List (ℚ × T))
    (h : ¬ elapsed < totalTime) :
    stepLoop s minDT totalTime sf fuel state elapsed attempted states =
      some states := by
  cases fuel <;> (rw [stepLoop]; rw [if_neg h])

theorem stepLoop_highError_count {T : Type} (s : Steppable T)
    (minDT totalTime : ℚ) (hmin : 0 < minDT)
    (hhigh : ∀ a b, ¬ s.distance a b < errorThreshold) (sf : ℕ)
    (hsf1 : 1 ≤ sf) :
    ∀ (k fuel : ℕ), k ≤ fuel → ∀ (state : T) (attempted : ℚ)
      (acc : List (ℚ × T)), attempted ≤ 2 ^ sf * minDT →
      ∃ res, stepLoop s minDT totalTime sf fuel state
          (totalTime - (k : ℚ) * minDT) attempted acc = some res ∧
        res.length = acc.length + k := by
  intro k
  induction k with
  | zero =>
    intro fuel _ state attempted acc _
    refine ⟨acc, stepLoop_exit s minDT totalTime sf fuel state _ attempted acc
      (by push_cast; simp), by omega⟩
  | succ k ih =>
    intro fuel hkf state attempted acc hatt
    cases fuel with
    | zero => omega
    | succ fuel =>
      rw [stepLoop]
      have hel : totalTime - (((k + 1 : ℕ)) : ℚ) * minDT < totalTime := by
        have hp : (0 : ℚ) < (((k + 1 : ℕ)) : ℚ) * minDT := by positivity
        linarith
      rw [if_pos hel]
      simp only [search_highError s hhigh sf state attempted none hatt]
      have harith : totalTime - (((k + 1 : ℕ)) : ℚ) * minDT + minDT =
          totalTime - (k : ℚ) * minDT := by
        push_cast
        ring
      rw [harith]
      have h2sf : (2 : ℚ) ≤ 2 ^ sf := by
        calc (2 : ℚ) = 2 ^ 1 := by norm_num
          _ ≤ 2 ^ sf := by
            apply pow_le_pow_right (by norm_num) hsf1
      have hatt' : (if minDT * 2 > totalTime - (totalTime - (k : ℚ) * minDT)
            then totalTime - (totalTime - (k : ℚ) * minDT) else minDT * 2) ≤
          2 ^ sf * minDT := by
        split
        · next hcond => nlinarith
        · nlinarith
      obtain ⟨res, heq2, hlen⟩ := ih fuel (by omega) (s.update state minDT) _
        (acc ++ [(minDT, s.update state minDT)]) hatt'
      refine ⟨res, heq2, ?_⟩
      simp only [List.length_append, List.length_cons, List.length_nil] at hlen
      omega

/-- Counterexample to the `O(log2(totalTime/MIN_DT))` sub-step bound of C2:
with an always-high-error steppable, `MIN_DT = 1` and `totalTime = 1024`,
the outer step records exactly 1024 accepted sub-steps, while
`log2(totalTime/MIN_DT) = 10`; the count equals the linear ratio
`totalTime / MIN_DT` and exceeds ten times its base-2 logarithm. -/
theorem C2_counterexample_substeps_not_logarithmic :
    ∃ res, stepInTimeWithHistory highErrorSteppable 1 11 1024 () 1024 =
        some res ∧
      res.length = 1024 ∧ (1024 : ℕ) = 2 ^ 10 ∧ 10 * 10 < 1024 := by
  have hhigh : ∀ a b : Unit,
      ¬ highErrorSteppable.distance a b < errorThreshold := by
    intro a b
    norm_num [highErrorSteppable, errorThreshold]
  obtain ⟨res, heq, hlen⟩ := stepLoop_highError_count highErrorSteppable
    1 1024 (by norm_num) hhigh 11 (by norm_num) 1024 1024 (le_refl _)
    () 1024 [] (by norm_num)
  refine ⟨res, ?_, by simpa using hlen, by norm_num, by norm_num⟩
  rw [stepInTimeWithHistory]
  have h0 : (0 : ℚ) = 1024 - ((1024 : ℕ) : ℚ) * 1 := by push_cast; ring
  rw [h0]
  exact heq

/-! ## Claim C3: one Richardson-style step of `search` -/

/-- C3: for `dt > MIN_DT`, one `search` step compares the coarse result
`a = update(state, dt)` against the fine result
`b2 = update(update(state, dt/2), dt/2)` (reusing a parent-supplied
half-step state `b1` when present); if `distance(a, b2) < 1e-5` it accepts
`dt` and returns `b2` — the fine result, not `a` — and otherwise it
recurses on `dt/2` passing the already-computed half-step state `b1` down
to the child call. -/
theorem C3_search_richardson_step {T : Type} (s : Steppable T) (minDT : ℚ)
    (fuel : ℕ) (state : T) (dt : ℚ) (hdt : minDT < dt) :
    errorThreshold = 1 / 100000 ∧
    (∀ b1 : T,
      (s.distance (s.update state dt) (s.update b1 (dt / 2)) <
          errorThreshold →
        search s minDT (fuel + 1) state dt (some b1) =
          some (dt, s.update b1 (dt / 2))) ∧
      (¬ s.distance (s.update state dt) (s.update b1 (dt / 2)) <
          errorThreshold →
        search s minDT (fuel + 1) state dt (some b1) =
          search s minDT fuel state (dt / 2) (some b1))) ∧
    (s.distance (s.update state dt)
        (s.update (s.update state (dt / 2)) (dt / 2)) < errorThreshold →
      search s minDT (fuel + 1) state dt none =
        some (dt, s.update (s.update state (dt / 2)) (dt / 2))) ∧
    (¬ s.distance (s.update state dt)
        (s.update (s.update state (dt / 2)) (dt / 2)) < errorThreshold →
      search s minDT (fuel + 1) state dt none =
        search s minDT fuel state (dt / 2)
          (some (s.update state (dt / 2)))) := by
  have hnle := not_le.mpr hdt
  refine ⟨rfl, fun b1 => ⟨?_, ?_⟩, ?_, ?_⟩
  · intro hcond
    conv_lhs => rw [search]
    simp only [if_neg hnle, Option.getD_some, if_pos hcond]
  · intro hcond
    conv_lhs => rw [search]
    simp only [if_neg hnle, Option.getD_some, if_neg hcond]
  · intro hcond
    conv_lhs => rw [search]
    simp only [if_neg hnle, Option.getD_none, if_pos hcond]
  · intro hcond
    conv_lhs => rw [search]
    simp only [if_neg hnle, Option.getD_none, if_neg hcond]

/-- Witness for C3: the shift steppable on ℚ with `MIN_DT = 1` and
`dt = 2`. -/
theorem C3_search_richardson_step_witness :
    ((1 : ℚ) < 2) ∧
    (errorThreshold = 1 / 100000 ∧
    (∀ b1 : ℚ,
      ((⟨fun x d => x + d, fun a b => a - b⟩ : Steppable ℚ).distance
          ((⟨fun x d => x + d, fun a b => a - b⟩ : Steppable ℚ).update 0 2)
          ((⟨fun x d => x + d, fun a b => a - b⟩ : Steppable ℚ).update b1
            (2 / 2)) < errorThreshold →
        search (⟨fun x d => x + d, fun a b => a - b⟩ : Steppable ℚ) 1
            (0 + 1) 0 2 (some b1) =
          some (2, (⟨fun x d => x + d, fun a b => a - b⟩ :
            Steppable ℚ).update b1 (2 / 2))) ∧
      (¬ (⟨fun x d => x + d, fun a b => a - b⟩ : Steppable ℚ).distance
          ((⟨fun x d => x + d, fun a b => a - b⟩ : Steppable ℚ).update 0 2)
          ((⟨fun x d => x + d, fun a b => a - b⟩ : Steppable ℚ).update b1
            (2 / 2)) < errorThreshold →
        search (⟨fun x d => x + d, fun a b => a - b⟩ : Steppable ℚ) 1
            (0 + 1) 0 2 (some b1) =
          search (⟨fun x d => x + d, fun a b => a - b⟩ : Steppable ℚ) 1 0 0
            (2 / 2) (some b1))) ∧
    ((⟨fun x d => x + d, fun a b => a - b⟩ : Steppable ℚ).distance
        ((⟨fun x d => x + d, fun a b => a - b⟩ : Steppable ℚ).update 0 2)
        ((⟨fun x d => x + d, fun a b => a - b⟩ : Steppable ℚ).update
          ((⟨fun x d => x + d, fun a b => a - b⟩ : Steppable ℚ).update 0
            (2 / 2)) (2 / 2)) < errorThreshold →
      search (⟨fun x d => x + d, fun a b => a - b⟩ : Steppable ℚ) 1 (0 + 1)
          0 2 none =
        some (2, (⟨fun x d => x + d, fun a b => a - b⟩ :
          Steppable ℚ).update
            ((⟨fun x d => x + d, fun a b => a - b⟩ : Steppable ℚ).update 0
              (2 / 2)) (2 / 2))) ∧
    (¬ (⟨fun x d => x + d, fun a b => a - b⟩ : Steppable ℚ).distance
        ((⟨fun x d => x + d, fun a b => a - b⟩ : Steppable ℚ).update 0 2)
        ((⟨fun x d => x + d, fun a b => a - b⟩ : Steppable ℚ).update
          ((⟨fun x d => x + d, fun a b => a - b⟩ : Steppable ℚ).update 0
            (2 / 2)) (2 / 2)) < errorThreshold →
      search (⟨fun x d => x + d, fun a b => a - b⟩ : Steppable ℚ) 1 (0 + 1)
          0 2 none =
        search (⟨fun x d => x + d, fun a b => a - b⟩ : Steppable ℚ) 1 0 0
          (2 / 2) (some ((⟨fun x d => x + d, fun a b => a - b⟩ :
            Steppable ℚ).update 0 (2 / 2))))) :=
  ⟨by norm_num,
    C3_search_richardson_step (⟨fun x d => x + d, fun a b => a - b⟩ :
      Steppable ℚ) 1 0 0 2 (by norm_num)⟩

/-! ## Claim C4: duration-weighted time-average current -/

/-- C4: `getTimeAverageCurrent` is the duration-weighted mean
`Σ currentᵢ(e)·dtᵢ / Σ dtᵢ` of the recorded sub-steps; over two sub-steps
it equals `(i1·dt1 + i2·dt2)/(dt1 + dt2)`, and over a single sub-step it
returns that sub-step's current. -/
theorem C4_time_average_current (α : Type) :
    (∀ (resultSet : List (ℚ × (α → ℚ))) (element : α),
      getTimeAverageCurrent resultSet element =
        (resultSet.map (fun st => st.2 element * st.1)).sum /
          (resultSet.map Prod.fst).sum) ∧
    (∀ (element : α) (dt1 i1 dt2 i2 : ℚ),
      getTimeAverageCurrent [(dt1, fun _ => i1), (dt2, fun _ => i2)]
          element = (i1 * dt1 + i2 * dt2) / (dt1 + dt2)) ∧
    (∀ (element : α) (dt1 i1 : ℚ), dt1 ≠ 0 →
      getTimeAverageCurrent [(dt1, fun _ => i1)] element = i1) := by
  refine ⟨?_, ?_, ?_⟩
  · intro resultSet element
    unfold getTimeAverageCurrent
    rw [foldl_add_eq (fun st => st.2 element * st.1) resultSet 0,
      foldl_add_eq (fun st : ℚ × (α → ℚ) => st.1) resultSet 0]
    simp only [zero_add]
  · intro element dt1 i1 dt2 i2
    simp only [getTimeAverageCurrent, List.foldl_cons, List.foldl_nil,
      zero_add]
  · intro element dt1 i1 hdt
    simp only [getTimeAverageCurrent, List.foldl_cons, List.foldl_nil,
      zero_add]
    field_simp

/-- Witness for C4 at a single sub-step of duration 2 carrying 3 A. -/
theorem C4_time_average_current_witness :
    ((2 : ℚ) ≠ 0) ∧
    getTimeAverageCurrent [((2 : ℚ), fun _ => (3 : ℚ))] () = 3 :=
  ⟨by norm_num, (C4_time_average_current Unit).2.2 () 2 3 (by norm_num)⟩

/-! ## Claim C7: the one-shot corrective re-solve -/

theorem anyBatteryExceeds_of_get? (avg : ℕ → ℚ) (th : ℚ) :
    ∀ (l : List ResistiveBatteryAdapter) (j i : ℕ)
      (b : ResistiveBatteryAdapter), l.get? i = some b →
      |avg (j + i)| > th → anyBatteryExceeds avg th j l = true := by
  intro l
  induction l with
  | nil => intro j i b hi; simp at hi
  | cons hd tl ih =>
    intro j i b hi hex
    cases i with
    | zero =>
      rw [anyBatteryExceeds]
      simp only [Nat.add_zero] at hex
      simp [hex]
    | succ i =>
      rw [anyBatteryExceeds]
      simp only [List.get?_cons_succ] at hi
      have := ih (j + 1) i b hi (by
        have : j + 1 + i = j + (i + 1) := by omega
        rw [this]
        exact hex)
      simp [this]

theorem adjustBatteries_get? (avg : ℕ → ℚ) (th : ℚ) :
    ∀ (l : List ResistiveBatteryAdapter) (j i : ℕ),
      (adjustBatteries avg th j l).get? i = (l.get? i).map
        (fun b => if |avg (j + i)| > th
          then { b with resistance := b.internalResistance } else b) := by
  intro l
  induction l with
  | nil => intro j i; simp [adjustBatteries]
  | cons hd tl ih =>
    intro j i
    cases i with
    | zero => simp [adjustBatteries]
    | succ i =>
      rw [adjustBatteries]
      simp only [List.get?_cons_succ]
      rw [ih (j + 1) i]
      have : j + 1 + i = j + (i + 1) := by omega
      rw [this]

/-- C7: after the first full solve, at most one corrective re-solve is ever
performed (the solve count is 1 or 2, never iterated); and when some
voltage source's time-averaged current magnitude exceeds the configured
threshold, exactly one re-solve runs, on adapters in which that source's
effective series resistance has been raised to its true internal
resistance, having started from the near-zero default set by the adapter
constructor. -/
theorem C7_single_corrective_resolve (R : Type) (env : AdapterEnv R)
    (nearZeroDefault internalResistance : ℚ) :
    (∀ (batteries : List ResistiveBatteryAdapter)
        (bulbs : List ResistorAdapterView),
      (solveModifiedNodalAnalysis env batteries bulbs).solveCount = 1 ∨
        (solveModifiedNodalAnalysis env batteries bulbs).solveCount = 2) ∧
    (∀ (batteries : List ResistiveBatteryAdapter)
        (bulbs : List ResistorAdapterView) (i : ℕ)
        (b : ResistiveBatteryAdapter), batteries.get? i = some b →
      |env.getTimeAverageCurrent
          (env.solveWithSubdivisions batteries bulbs) i| >
        env.batteryCurrentThreshold →
      (solveModifiedNodalAnalysis env batteries bulbs).solveCount = 2 ∧
      (solveModifiedNodalAnalysis env batteries
          bulbs).finalBatteries.get? i =
        some { b with resistance := b.internalResistance } ∧
      (solveModifiedNodalAnalysis env batteries bulbs).result =
        env.solveWithSubdivisions
          (solveModifiedNodalAnalysis env batteries bulbs).finalBatteries
          (solveModifiedNodalAnalysis env batteries bulbs).finalBulbs) ∧
    (mkResistiveBatteryAdapter nearZeroDefault
        internalResistance).resistance = nearZeroDefault ∧
    (mkResistiveBatteryAdapter nearZeroDefault
        internalResistance).internalResistance = internalResistance := by
  refine ⟨?_, ?_, rfl, rfl⟩
  · intro batteries bulbs
    simp only [solveModifiedNodalAnalysis]
    split
    · exact Or.inr rfl
    · exact Or.inl rfl
  · intro batteries bulbs i b hi hex
    have hany : anyBatteryExceeds
        (env.getTimeAverageCurrent (env.solveWithSubdivisions batteries
          bulbs)) env.batteryCurrentThreshold 0 batteries = true :=
      anyBatteryExceeds_of_get? _ _ batteries 0 i b hi (by simpa using hex)
    simp only [solveModifiedNodalAnalysis]
    rw [hany, Bool.or_true, if_pos rfl]
    refine ⟨rfl, ?_, rfl⟩
    rw [adjustBatteries_get? _ _ batteries 0 i, hi]
    simp only [Option.map_some']
    rw [if_pos (by simpa using hex)]

/-- The environment of the C7 witness: a constant solver over ℕ results,
average current 10 and threshold 1. -/
def C7env : AdapterEnv ℕ :=
  ⟨fun _ _ => 0, fun _ _ => 10, fun _ _ => 1, 1⟩

/-- Witness for C7: one battery adapter with internal resistance 5 and
effective resistance 0, drawing 10 A against a threshold of 1 A. -/
theorem C7_single_corrective_resolve_witness :
    (([(⟨5, 0⟩ : ResistiveBatteryAdapter)].get? 0 = some ⟨5, 0⟩) ∧
      |C7env.getTimeAverageCurrent
          (C7env.solveWithSubdivisions [⟨5, 0⟩] []) 0| >
        C7env.batteryCurrentThreshold) ∧
    ((solveModifiedNodalAnalysis C7env [⟨5, 0⟩] []).solveCount = 2 ∧
      (solveModifiedNodalAnalysis C7env [⟨5, 0⟩] []).finalBatteries.get? 0 =
        some ⟨5, 5⟩ ∧
      (solveModifiedNodalAnalysis C7env [⟨5, 0⟩] []).result =
        C7env.solveWithSubdivisions
          (solveModifiedNodalAnalysis C7env [⟨5, 0⟩] []).finalBatteries
          (solveModifiedNodalAnalysis C7env [⟨5, 0⟩] []).finalBulbs) :=
  ⟨⟨rfl, by norm_num [C7env]⟩,
    (C7_single_corrective_resolve ℕ C7env 0 5).2.1 [⟨5, 0⟩] [] 0 ⟨5, 0⟩ rfl
      (by norm_num [C7env])⟩
